import Mathlib

/-!
# Merge sort over CSV records (`mergeSort.c`)

A shallow embedding of the sorting core of `mergeSort.c`:
`comparar_registros`, `merge` and `mergeSort`, with the global `stats`
counters passed explicitly.

Conventions of the embedding.

* A C `int` is an `Int`.  Inside an array of at most `2^31 - 1` records every
  index expression of the code stays in the `int` range, so no wrap-around is
  modelled for indices.  The `long long` counters are `Int` as well.
* The array `arr` is a `List Registro`; a read or write outside it is undefined
  behaviour in C and `none` here.
* A `malloc`ed temporary is a list of slots, each `none` until it is written;
  reading an unwritten slot is `none` as well.
* The C loops are functions by recursion on a fuel counter.  A loop that runs out
  of fuel yields `none`; `merge` and `mergeSort` pass enough fuel for every
  loop to reach its exit, which is part of what is proved below.
* A `char *` field is the list of the bytes of the string, a `double` field the
  bit pattern of the IEEE 754 binary64 value.
-/

namespace ApsMergeSort

/-! ## Data model -/

/-- A C `double`, held by its IEEE 754 binary64 bit pattern (a number below `2^64`):
bit 63 is the sign, bits 52..62 the exponent, bits 0..51 the fraction. -/
structure Double where
  bits : Nat
  deriving DecidableEq

namespace Double

/-- Not-a-number: exponent all ones and a non-zero fraction. -/
def isNaN (d : Double) : Bool :=
  (d.bits / 2 ^ 52) % 2 ^ 11 == 2047 && d.bits % 2 ^ 52 != 0

/-- Rank of a value that is not a NaN: the magnitude bits, negated when the sign
bit is set.  Both zeros get rank `0`; the order of the ranks is the numeric order. -/
def rank (d : Double) : Int :=
  if (d.bits / 2 ^ 63) % 2 = 1 then -((d.bits % 2 ^ 63 : Nat) : Int)
  else ((d.bits % 2 ^ 63 : Nat) : Int)

/-- The C expression `x < y` on doubles: false as soon as one side is a NaN. -/
def lt (x y : Double) : Bool :=
  !x.isNaN && !y.isNaN && decide (x.rank < y.rank)

/-- The C expression `x > y` on doubles. -/
def gt (x y : Double) : Bool :=
  !x.isNaN && !y.isNaN && decide (y.rank < x.rank)

end Double

/-- A C string: the bytes before the terminating NUL. -/
abbrev CString := List Nat

/-- The record `Registro` of the source: one parsed CSV line. -/
structure Registro where
  id_bdq : CString
  foco_id : CString
  lat : Double
  lon : Double
  data_pas : CString
  pais : CString
  estado : CString
  municipio : CString
  bioma : CString
  linha_original : CString
  deriving DecidableEq

/-- The record `Estatisticas` of the source; the global `stats` is a value of it. -/
structure Estatisticas where
  comparacoes : Int
  movimentacoes : Int
  tempo_execucao : Double
  deriving DecidableEq

/-- The C library `strcmp`: the order of the first pair of bytes that differ,
a string that ends first being the smaller.  The C standard fixes the sign of
the result only; the value is normalised to `-1`, `0`, `1`. -/
def strcmp : CString → CString → Int
  | [], [] => 0
  | [], _ :: _ => -1
  | _ :: _, [] => 1
  | a :: s, b :: t => if a < b then -1 else if b < a then 1 else strcmp s t

/-! ## The comparator -/

/-- The function `comparar_registros`: counts one comparison, then returns the
comparison of the field selected by `campo` (the `switch`, with `0` as its
`default`).  The result is the returned `int` and the new `stats`. -/
def comparar_registros (a b : Registro) (campo : Int) (stats : Estatisticas) :
    Int × Estatisticas :=
  let stats := { stats with comparacoes := stats.comparacoes + 1 }
  (if campo = 1 then strcmp a.id_bdq b.id_bdq
    else if campo = 2 then strcmp a.foco_id b.foco_id
    else if campo = 3 then
      (if Double.lt a.lat b.lat then -1 else if Double.gt a.lat b.lat then 1 else 0)
    else if campo = 4 then
      (if Double.lt a.lon b.lon then -1 else if Double.gt a.lon b.lon then 1 else 0)
    else if campo = 5 then strcmp a.data_pas b.data_pas
    else if campo = 6 then strcmp a.pais b.pais
    else if campo = 7 then strcmp a.estado b.estado
    else if campo = 8 then strcmp a.municipio b.municipio
    else if campo = 9 then strcmp a.bioma b.bioma
    else 0,
   stats)

/-! ## Memory accesses -/

/-- A temporary array obtained from `malloc`: a slot is `none` until written. -/
abbrev Buffer := List (Option Registro)

/-- The call `malloc(n * sizeof(Registro))`: `n` unwritten slots (none for `n ≤ 0`). -/
def malloc (n : Int) : Buffer := List.replicate n.toNat none

/-- Read `arr[i]`. -/
def readArr (arr : List Registro) (i : Int) : Option Registro :=
  if 0 ≤ i then arr[i.toNat]? else none

/-- Write `arr[i] = r`. -/
def writeArr (arr : List Registro) (i : Int) (r : Registro) : Option (List Registro) :=
  if 0 ≤ i ∧ i < arr.length then some (arr.set i.toNat r) else none

/-- Read slot `i` of a temporary. -/
def readBuf (buf : Buffer) (i : Int) : Option Registro :=
  if 0 ≤ i then (buf[i.toNat]?).join else none

/-- Write slot `i` of a temporary. -/
def writeBuf (buf : Buffer) (i : Int) (r : Registro) : Option Buffer :=
  if 0 ≤ i ∧ i < buf.length then some (buf.set i.toNat (some r)) else none

/-- One more movement counted: `stats.movimentacoes++`. -/
def contar_movimentacao (stats : Estatisticas) : Estatisticas :=
  { stats with movimentacoes := stats.movimentacoes + 1 }

/-! ## The loops of `merge` -/

/-- The two copy loops at the head of `merge`,
`for (i = 0; i < n; i++) { T[i] = arr[base + i]; stats.movimentacoes++; }`,
with `base = left` for `L` and `base = middle + 1` for `R`.
The state is the loop index, the temporary and `stats`. -/
def copiar_para_temp (arr : List Registro) (base n : Int) :
    Nat → Int → Buffer → Estatisticas → Option (Buffer × Estatisticas)
  | 0, _, _, _ => none
  | fuel + 1, i, buf, stats =>
    if i < n then
      match readArr arr (base + i) with
      | none => none
      | some r =>
        match writeBuf buf i r with
        | none => none
        | some buf1 =>
          copiar_para_temp arr base n fuel (i + 1) buf1 (contar_movimentacao stats)
    else some (buf, stats)

/-- The state of the three write-back loops of `merge`: the cursors `i`, `j`, `k`,
the array and `stats`. -/
structure MergeState where
  i : Int
  j : Int
  k : Int
  arr : List Registro
  stats : Estatisticas
  deriving DecidableEq

/-- The loop `while (i < n1 && j < n2)` of `merge`. -/
def laco_intercalar (L R : Buffer) (n1 n2 campo : Int) :
    Nat → MergeState → Option MergeState
  | 0, _ => none
  | fuel + 1, s =>
    if s.i < n1 ∧ s.j < n2 then
      match readBuf L s.i, readBuf R s.j with
      | some a, some b =>
        let c := comparar_registros a b campo s.stats
        if c.1 ≤ 0 then
          match writeArr s.arr s.k a with
          | none => none
          | some arr1 =>
            laco_intercalar L R n1 n2 campo fuel
              ⟨s.i + 1, s.j, s.k + 1, arr1, contar_movimentacao c.2⟩
        else
          match writeArr s.arr s.k b with
          | none => none
          | some arr1 =>
            laco_intercalar L R n1 n2 campo fuel
              ⟨s.i, s.j + 1, s.k + 1, arr1, contar_movimentacao c.2⟩
      | _, _ => none
    else some s

/-- The loop `while (i < n1)` of `merge`: the rest of `L`. -/
def laco_resto_L (L : Buffer) (n1 : Int) : Nat → MergeState → Option MergeState
  | 0, _ => none
  | fuel + 1, s =>
    if s.i < n1 then
      match readBuf L s.i with
      | none => none
      | some a =>
        match writeArr s.arr s.k a with
        | none => none
        | some arr1 =>
          laco_resto_L L n1 fuel ⟨s.i + 1, s.j, s.k + 1, arr1, contar_movimentacao s.stats⟩
    else some s

/-- The loop `while (j < n2)` of `merge`: the rest of `R`. -/
def laco_resto_R (R : Buffer) (n2 : Int) : Nat → MergeState → Option MergeState
  | 0, _ => none
  | fuel + 1, s =>
    if s.j < n2 then
      match readBuf R s.j with
      | none => none
      | some b =>
        match writeArr s.arr s.k b with
        | none => none
        | some arr1 =>
          laco_resto_R R n2 fuel ⟨s.i, s.j + 1, s.k + 1, arr1, contar_movimentacao s.stats⟩
    else some s

/-! ## `merge` and `mergeSort` -/

/-- The body of `merge` up to the two `free` calls: the final state of the cursors,
the array and `stats`.  Each loop gets one unit of fuel more than the largest
number of iterations it can make. -/
def merge_estado (arr : List Registro) (left middle right campo : Int)
    (stats : Estatisticas) : Option MergeState :=
  let n1 := middle - left + 1
  let n2 := right - middle
  (copiar_para_temp arr left n1 (n1.toNat + 1) 0 (malloc n1) stats).bind fun p1 =>
  (copiar_para_temp arr (middle + 1) n2 (n2.toNat + 1) 0 (malloc n2) p1.2).bind fun p2 =>
  (laco_intercalar p1.1 p2.1 n1 n2 campo (n1.toNat + n2.toNat + 1)
      ⟨0, 0, left, arr, p2.2⟩).bind fun s1 =>
  (laco_resto_L p1.1 n1 (n1.toNat + 1) s1).bind fun s2 =>
  laco_resto_R p2.1 n2 (n2.toNat + 1) s2

/-- The function `merge`: the array and `stats` when it returns. -/
def merge (arr : List Registro) (left middle right campo : Int)
    (stats : Estatisticas) : Option (List Registro × Estatisticas) :=
  (merge_estado arr left middle right campo stats).map fun s => (s.arr, s.stats)

/-- The recursion of `mergeSort`, by fuel: the depth still allowed. -/
def mergeSort_fuel : Nat → List Registro → Int → Int → Int → Estatisticas →
    Option (List Registro × Estatisticas)
  | 0, _, _, _, _, _ => none
  | fuel + 1, arr, left, right, campo, stats =>
    if left < right then
      let middle := left + (right - left).tdiv 2
      match mergeSort_fuel fuel arr left middle campo stats with
      | none => none
      | some (arr1, stats1) =>
        match mergeSort_fuel fuel arr1 (middle + 1) right campo stats1 with
        | none => none
        | some (arr2, stats2) => merge arr2 left middle right campo stats2
    else some (arr, stats)

/-- The function `mergeSort`.  A range of `right - left + 1` records is halved at
every level, so a depth of `right - left + 1` is never reached. -/
def mergeSort (arr : List Registro) (left right campo : Int) (stats : Estatisticas) :
    Option (List Registro × Estatisticas) :=
  mergeSort_fuel ((right - left).toNat + 1) arr left right campo stats

/-- The counters as `main` resets them before the sort. -/
def stats_zero : Estatisticas := ⟨0, 0, ⟨0⟩⟩

/-- A record whose latitude has the bit pattern `b` and whose text fields hold
the one byte `t`. -/
def reg_lat (b t : Nat) : Registro :=
  ⟨[t], [t], ⟨b⟩, ⟨0⟩, [t], [t], [t], [t], [t], [t]⟩

/-- Bit patterns of the doubles `1.0` to `5.0`. -/
def d1 : Nat := 0x3FF0000000000000
def d2 : Nat := 0x4000000000000000
def d3 : Nat := 0x4008000000000000
def d4 : Nat := 0x4010000000000000
def d5 : Nat := 0x4014000000000000

/-- Bit pattern of a quiet NaN. -/
def dNaN : Nat := 0x7FF8000000000000

/-! ## List view of the algorithm

The functions below describe, on plain lists, what the loops compute.  They are
related to the code by the refinement theorems further down. -/

/-- The value `comparar_registros` returns, without the counter. -/
def valor_comparacao (campo : Int) (a b : Registro) : Int :=
  (comparar_registros a b campo stats_zero).1

/-- The test `comparar_registros(a, b, campo) <= 0` of the merge loop. -/
def nao_maior (campo : Int) (a b : Registro) : Bool :=
  decide (valor_comparacao campo a b ≤ 0)

/-- What the three write-back loops of `merge` write, given what is left of `L`
and of `R`: the head of `L` goes first unless `le` rejects it. -/
def intercala {α : Type} (le : α → α → Bool) : List α → List α → List α
  | [], ys => ys
  | x :: xs, [] => x :: xs
  | x :: xs, y :: ys =>
    if le x y then x :: intercala le xs (y :: ys) else y :: intercala le (x :: xs) ys

/-- The number of times the loop `while (i < n1 && j < n2)` calls the comparator. -/
def intercala_comps {α : Type} (le : α → α → Bool) : List α → List α → Nat
  | [], _ => 0
  | _ :: _, [] => 0
  | x :: xs, y :: ys =>
    if le x y then intercala_comps le xs (y :: ys) + 1
    else intercala_comps le (x :: xs) ys + 1

/-- Size of the left half of a range of `n ≥ 2` records:
`middle - left + 1` for `middle = left + (n - 1) / 2`. -/
def metade (n : Nat) : Nat := (n - 1) / 2 + 1

/-- What `mergeSort` leaves in a range that held `l`, by the same fuel. -/
def ordena {α : Type} (le : α → α → Bool) : Nat → List α → List α
  | 0, l => l
  | fuel + 1, l =>
    if l.length < 2 then l
    else intercala le (ordena le fuel (l.take (metade l.length)))
      (ordena le fuel (l.drop (metade l.length)))

/-- The number of comparator calls `mergeSort` makes on a range that held `l`. -/
def ordena_comps {α : Type} (le : α → α → Bool) : Nat → List α → Nat
  | 0, _ => 0
  | fuel + 1, l =>
    if l.length < 2 then 0
    else ordena_comps le fuel (l.take (metade l.length))
      + ordena_comps le fuel (l.drop (metade l.length))
      + intercala_comps le (ordena le fuel (l.take (metade l.length)))
          (ordena le fuel (l.drop (metade l.length)))

/-- The number of record copies `mergeSort` makes on a range of `n` records. -/
def ordena_movs : Nat → Nat → Nat
  | 0, _ => 0
  | fuel + 1, n =>
    if n < 2 then 0
    else ordena_movs fuel (metade n) + ordena_movs fuel (n - metade n) + 2 * n

/-! ## Predicates and inputs used in the statements -/

/-- The key of `r` selected by `campo` is not a NaN.  Only the two `double` fields
(`lat`, key 3, and `lon`, key 4) can hold one. -/
def chave_sem_nan (campo : Int) (r : Registro) : Bool :=
  if campo = 3 then !r.lat.isNaN else if campo = 4 then !r.lon.isNaN else true

/-- The records of the stability counterexample: latitudes 5.0, NaN, 1.0. -/
def arr_nan : List Registro := [reg_lat d5 65, reg_lat dNaN 66, reg_lat d1 67]

/-- Latitudes 2.0, 1.0, 1.0, 1.0, NaN, 1.0. -/
def arr_nan6 : List Registro :=
  [reg_lat d2 65, reg_lat d1 66, reg_lat d1 67, reg_lat d1 68, reg_lat dNaN 69, reg_lat d1 70]

/-- Stability of one `mergeSort(arr, 0, n-1, campo)` call: the call returns, and
there is a list `σ` of source positions, a permutation of `0..n-1`, such that the
record at position `p` of the result is the one that was at `σ[p]`, and whenever
`i < j` held records comparing equal (`comparar_registros` returns 0), `i` comes
before `j` in `σ`. -/
def estavel (campo : Int) (arr : List Registro) (st : Estatisticas) : Prop :=
  ∃ (out : List Registro) (st1 : Estatisticas) (σ : List Nat),
    mergeSort arr 0 ((arr.length : Int) - 1) campo st = some (out, st1) ∧
    σ.Perm (List.range arr.length) ∧
    (∀ p : Nat, out[p]? = (σ[p]?).bind fun q => arr[q]?) ∧
    ∀ (i j : Nat) (a b : Registro), i < j → arr[i]? = some a → arr[j]? = some b →
      (comparar_registros a b campo st).1 = 0 →
      ∃ p q : Nat, p < q ∧ σ[p]? = some i ∧ σ[q]? = some j

/-- Every adjacent pair of `arr` is in order under `campo`. -/
def ordenado (campo : Int) (arr : List Registro) (st : Estatisticas) : Prop :=
  ∀ (i : Nat) (a b : Registro), arr[i]? = some a → arr[i + 1]? = some b →
    (comparar_registros a b campo st).1 ≤ 0

/-! ## Index arithmetic, call structure and movement count -/

/-- The largest value of a 32-bit `int`. -/
def INT_MAX : Int := 2 ^ 31 - 1

/-- The smallest value of a 32-bit `int`. -/
def INT_MIN : Int := -(2 ^ 31)

/-- The value `x` fits a 32-bit signed `int`. -/
def cabe_em_int (x : Int) : Prop := INT_MIN ≤ x ∧ x ≤ INT_MAX

/-- The expression `left + (right - left) / 2` of `mergeSort`, with the truncating
division of C. -/
def ponto_medio (left right : Int) : Int := left + (right - left).tdiv 2

/-- The movement count as the specification states it: `M(n) = 0` for `n ≤ 1` and
`M(n) = M(ceil(n/2)) + M(floor(n/2)) + 2n` for `n ≥ 2`. -/
def M (n : Nat) : Nat :=
  if n ≤ 1 then 0 else M ((n + 1) / 2) + M (n / 2) + 2 * n
termination_by n
decreasing_by
  all_goals simp_wf
  all_goals omega

/-! ## The key a field selector picks -/

/-- The C expression `x == y` on doubles: false as soon as one side is a NaN. -/
def Double.eq (x y : Double) : Bool :=
  !x.isNaN && !y.isNaN && decide (x.rank = y.rank)

/-- The string field a key selects: 1 `id_bdq`, 2 `foco_id`, 5 `data_pas`, 6 `pais`,
7 `estado`, 8 `municipio`, 9 `bioma` (the empty string for any other key). -/
def chave_texto (campo : Int) (r : Registro) : CString :=
  if campo = 1 then r.id_bdq
  else if campo = 2 then r.foco_id
  else if campo = 5 then r.data_pas
  else if campo = 6 then r.pais
  else if campo = 7 then r.estado
  else if campo = 8 then r.municipio
  else if campo = 9 then r.bioma
  else []

/-- The numeric field a key selects: 3 `lat`, 4 `lon` (zero for any other key). -/
def chave_num (campo : Int) (r : Registro) : Double :=
  if campo = 3 then r.lat else if campo = 4 then r.lon else ⟨0⟩

/-! ## The calls of `merge` that `mergeSort` makes -/

/-- The recursion of `mergeSort` on its two indices alone, by the same fuel: the
`merge` calls `(left, middle, right)` it makes, in the order it makes them.  The
test `left < right`, the midpoint and the two recursive calls are those of
`mergeSort`; the array and `stats` play no part in them. -/
def mergeSort_chamadas : Nat → Int → Int → Option (List (Int × Int × Int))
  | 0, _, _ => none
  | fuel + 1, left, right =>
    if left < right then
      let middle := left + (right - left).tdiv 2
      match mergeSort_chamadas fuel left middle with
      | none => none
      | some c1 =>
        match mergeSort_chamadas fuel (middle + 1) right with
        | none => none
        | some c2 => some (c1 ++ c2 ++ [(left, middle, right)])
    else some []

/-- One recorded call `(left, middle, right)` of `merge`, applied to the array and
`stats`. -/
def aplicar_merge (campo : Int) (p : List Registro × Estatisticas)
    (c : Int × Int × Int) : Option (List Registro × Estatisticas) :=
  merge p.1 c.1 c.2.1 c.2.2 campo p.2

/-! ## Ties in one merge -/

/-- Every adjacent pair of `arr` between the positions `lo` and `hi` is in order
under `campo`. -/
def ordenado_em (campo : Int) (arr : List Registro) (lo hi : Int) (st : Estatisticas) :
    Prop :=
  ∀ (i : Nat) (a b : Registro), lo ≤ (i : Int) → (i : Int) < hi →
    arr[i]? = some a → arr[i + 1]? = some b → (comparar_registros a b campo st).1 ≤ 0

/-- Ties go left in one `merge(arr, left, middle, right, campo)` call: the call
returns, and there is a list `σ` of source positions, a permutation of
`left..right`, such that position `left + p` of the result holds the record that
was at `σ[p]`; a position `i` of the left run comes before a position `j` of the
right run in `σ` whenever their records compare equal; and two positions of the
same run keep their order in `σ`. -/
def empates_a_esquerda (campo : Int) (arr : List Registro) (left middle right : Int)
    (st : Estatisticas) : Prop :=
  ∃ (out : List Registro) (st1 : Estatisticas) (σ : List Nat),
    merge arr left middle right campo st = some (out, st1) ∧
    σ.Perm (List.range' left.toNat (right - left + 1).toNat) ∧
    (∀ p : Nat, p < σ.length → out[left.toNat + p]? = (σ[p]?).bind fun q => arr[q]?) ∧
    (∀ (i j : Nat) (a b : Registro), left ≤ (i : Int) → (i : Int) ≤ middle →
      middle < (j : Int) → (j : Int) ≤ right → arr[i]? = some a → arr[j]? = some b →
      (comparar_registros a b campo st).1 = 0 →
      ∃ p q : Nat, p < q ∧ σ[p]? = some i ∧ σ[q]? = some j) ∧
    (∀ i j : Nat, i < j →
      ((left ≤ (i : Int) ∧ (j : Int) ≤ middle) ∨ (middle < (i : Int) ∧ (j : Int) ≤ right)) →
      ∃ p q : Nat, p < q ∧ σ[p]? = some i ∧ σ[q]? = some j)

/-! ## The memory accesses of `merge` -/

/-- The three blocks of memory `merge` touches: the array and its two temporaries. -/
inductive Alvo where
  | arr
  | L
  | R
  deriving DecidableEq

/-- One memory access: the block, whether it is a write, and the index used. -/
structure Acesso where
  alvo : Alvo
  escrita : Bool
  indice : Int
  deriving DecidableEq

/-- The accesses of a copy loop `T[i] = arr[base + i]` of `merge`, in order: a read
of `arr[base + i]`, then a write of `T[i]`, for each iteration. -/
def copiar_para_temp_acessos (alvo : Alvo) (base n : Int) : Nat → Int → List Acesso
  | 0, _ => []
  | fuel + 1, i =>
    if i < n then
      ⟨Alvo.arr, false, base + i⟩ :: ⟨alvo, true, i⟩ ::
        copiar_para_temp_acessos alvo base n fuel (i + 1)
    else []

/-- The accesses of the loop `while (i < n1 && j < n2)` of `merge`, in order: the
comparator reads `L[i]` and `R[j]`, then the chosen one is read again and written
to `arr[k]`.  The states are those of `laco_intercalar`. -/
def laco_intercalar_acessos (L R : Buffer) (n1 n2 campo : Int) :
    Nat → MergeState → List Acesso
  | 0, _ => []
  | fuel + 1, s =>
    if s.i < n1 ∧ s.j < n2 then
      ⟨Alvo.L, false, s.i⟩ :: ⟨Alvo.R, false, s.j⟩ ::
      match readBuf L s.i, readBuf R s.j with
      | some a, some b =>
        let c := comparar_registros a b campo s.stats
        if c.1 ≤ 0 then
          ⟨Alvo.L, false, s.i⟩ :: ⟨Alvo.arr, true, s.k⟩ ::
          match writeArr s.arr s.k a with
          | none => []
          | some arr1 =>
            laco_intercalar_acessos L R n1 n2 campo fuel
              ⟨s.i + 1, s.j, s.k + 1, arr1, contar_movimentacao c.2⟩
        else
          ⟨Alvo.R, false, s.j⟩ :: ⟨Alvo.arr, true, s.k⟩ ::
          match writeArr s.arr s.k b with
          | none => []
          | some arr1 =>
            laco_intercalar_acessos L R n1 n2 campo fuel
              ⟨s.i, s.j + 1, s.k + 1, arr1, contar_movimentacao c.2⟩
      | _, _ => []
    else []

/-- The accesses of the loop `while (i < n1)` of `merge`: read `L[i]`, write
`arr[k]`. -/
def laco_resto_L_acessos (L : Buffer) (n1 : Int) : Nat → MergeState → List Acesso
  | 0, _ => []
  | fuel + 1, s =>
    if s.i < n1 then
      ⟨Alvo.L, false, s.i⟩ :: ⟨Alvo.arr, true, s.k⟩ ::
      match readBuf L s.i with
      | none => []
      | some a =>
        match writeArr s.arr s.k a with
        | none => []
        | some arr1 =>
          laco_resto_L_acessos L n1 fuel
            ⟨s.i + 1, s.j, s.k + 1, arr1, contar_movimentacao s.stats⟩
    else []

/-- The accesses of the loop `while (j < n2)` of `merge`: read `R[j]`, write
`arr[k]`. -/
def laco_resto_R_acessos (R : Buffer) (n2 : Int) : Nat → MergeState → List Acesso
  | 0, _ => []
  | fuel + 1, s =>
    if s.j < n2 then
      ⟨Alvo.R, false, s.j⟩ :: ⟨Alvo.arr, true, s.k⟩ ::
      match readBuf R s.j with
      | none => []
      | some b =>
        match writeArr s.arr s.k b with
        | none => []
        | some arr1 =>
          laco_resto_R_acessos R n2 fuel
            ⟨s.i, s.j + 1, s.k + 1, arr1, contar_movimentacao s.stats⟩
    else []

/-- The accesses of one `merge` call, in order: the two copy loops, then the three
write-back loops, each started in the state the loop before it ended in (as in
`merge_estado`). -/
def merge_acessos (arr : List Registro) (left middle right campo : Int)
    (stats : Estatisticas) : List Acesso :=
  let n1 := middle - left + 1
  let n2 := right - middle
  copiar_para_temp_acessos Alvo.L left n1 (n1.toNat + 1) 0 ++
  copiar_para_temp_acessos Alvo.R (middle + 1) n2 (n2.toNat + 1) 0 ++
  match copiar_para_temp arr left n1 (n1.toNat + 1) 0 (malloc n1) stats with
  | none => []
  | some p1 =>
    match copiar_para_temp arr (middle + 1) n2 (n2.toNat + 1) 0 (malloc n2) p1.2 with
    | none => []
    | some p2 =>
      laco_intercalar_acessos p1.1 p2.1 n1 n2 campo (n1.toNat + n2.toNat + 1)
        ⟨0, 0, left, arr, p2.2⟩ ++
      match laco_intercalar p1.1 p2.1 n1 n2 campo (n1.toNat + n2.toNat + 1)
          ⟨0, 0, left, arr, p2.2⟩ with
      | none => []
      | some s1 =>
        laco_resto_L_acessos p1.1 n1 (n1.toNat + 1) s1 ++
        match laco_resto_L p1.1 n1 (n1.toNat + 1) s1 with
        | none => []
        | some s2 => laco_resto_R_acessos p2.1 n2 (n2.toNat + 1) s2

/-- The indices of the writes to `arr` in a list of accesses, in order. -/
def escritas_arr (t : List Acesso) : List Int :=
  t.filterMap fun a => if a.alvo = Alvo.arr ∧ a.escrita = true then some a.indice else none

/-- The `n` consecutive integers from `a` on. -/
def intervalo : Int → Nat → List Int
  | _, 0 => []
  | a, n + 1 => a :: intervalo (a + 1) n

/-- An access of `merge(arr, left, middle, right, campo)` is in bounds: an index of
`arr` lies in `[left, right]`, an index of `L` below `n1 = middle - left + 1`, an
index of `R` below `n2 = right - middle`. -/
def acesso_valido (left middle right : Int) (a : Acesso) : Prop :=
  match a.alvo with
  | Alvo.arr => left ≤ a.indice ∧ a.indice ≤ right
  | Alvo.L => 0 ≤ a.indice ∧ a.indice < middle - left + 1
  | Alvo.R => 0 ≤ a.indice ∧ a.indice < right - middle

/-! ## Memory access lemmas -/

theorem readArr_at (pre post : List Registro) (x : Registro) :
    readArr (pre ++ x :: post) (pre.length : Int) = some x := by
  have h : (0 : Int) ≤ pre.length := by omega
  rw [readArr, if_pos h, Int.toNat_natCast, List.getElem?_append_right (Nat.le_refl _)]
  simp

theorem writeArr_at (pre post : List Registro) (m r : Registro) :
    writeArr (pre ++ m :: post) (pre.length : Int) r = some (pre ++ r :: post) := by
  simp [writeArr]

theorem readBuf_at (done rest : List Registro) (x : Registro) :
    readBuf ((done ++ x :: rest).map some) (done.length : Int) = some x := by
  have h : (List.map some done).length ≤ done.length := by simp
  simp [readBuf, List.getElem?_append_right h]

theorem writeBuf_at (pre post : Buffer) (m : Option Registro) (r : Registro) :
    writeBuf (pre ++ m :: post) (pre.length : Int) r = some (pre ++ some r :: post) := by
  simp [writeBuf]


theorem copiar_para_temp_spec (pre post : List Registro) :
    ∀ (rest done : List Registro) (junk : Buffer) (st : Estatisticas) (fuel : Nat),
      junk.length = rest.length → rest.length < fuel →
      copiar_para_temp (pre ++ (done ++ rest) ++ post) (pre.length : Int)
          ((done ++ rest).length : Int) fuel (done.length : Int) (done.map some ++ junk) st
        = some ((done ++ rest).map some,
            ⟨st.comparacoes, st.movimentacoes + rest.length, st.tempo_execucao⟩) := by
  intro rest
  induction rest with
  | nil =>
    intro done junk st fuel hj hf
    cases fuel with
    | zero => simp at hf
    | succ f =>
      have : junk = [] := List.length_eq_zero.mp hj
      subst this
      simp [copiar_para_temp]
  | cons x rest ih =>
    intro done junk st fuel hj hf
    cases fuel with
    | zero => simp at hf
    | succ f =>
      cases junk with
      | nil => simp at hj
      | cons m junk =>
        have hr : readArr (pre ++ (done ++ x :: rest) ++ post)
            ((pre.length : Int) + (done.length : Int)) = some x := by
          have := readArr_at (pre ++ done) (rest ++ post) x
          simpa using this
        have hw : writeBuf (done.map some ++ m :: junk) (done.length : Int) x
            = some (done.map some ++ some x :: junk) := by
          have := writeBuf_at (done.map some) junk m x
          simpa using this
        have hi := ih (done ++ [x]) junk (contar_movimentacao st) f
          (by simpa using hj) (by simpa using hf)
        simp only [List.append_assoc, List.singleton_append, List.length_append,
          List.length_singleton, List.length_cons, Nat.cast_add, Nat.cast_one,
          List.map_append, List.map_cons, List.map_nil, List.cons_append, List.nil_append,
          List.length_nil, Nat.cast_zero, zero_add] at hi hr ⊢
        rw [copiar_para_temp]
        simp only [hr, hw]
        rw [if_pos (by omega), hi]
        simp [contar_movimentacao]
        omega

theorem comparar_registros_fst (a b : Registro) (campo : Int) (st : Estatisticas) :
    (comparar_registros a b campo st).1 = valor_comparacao campo a b := by
  rfl

theorem comparar_registros_snd (a b : Registro) (campo : Int) (st : Estatisticas) :
    (comparar_registros a b campo st).2
      = ⟨st.comparacoes + 1, st.movimentacoes, st.tempo_execucao⟩ := by
  rfl

theorem laco_resto_L_spec (post : List Registro) (j : Int) :
    ∀ (rest done pre mid : List Registro) (st : Estatisticas) (fuel : Nat),
      mid.length = rest.length → rest.length < fuel →
      laco_resto_L ((done ++ rest).map some) ((done ++ rest).length : Int) fuel
          ⟨(done.length : Int), j, (pre.length : Int), pre ++ mid ++ post, st⟩
        = some ⟨((done ++ rest).length : Int), j, ((pre ++ rest).length : Int),
            pre ++ rest ++ post,
            ⟨st.comparacoes, st.movimentacoes + rest.length, st.tempo_execucao⟩⟩ := by
  intro rest
  induction rest with
  | nil =>
    intro done pre mid st fuel hm hf
    cases fuel with
    | zero => simp at hf
    | succ f =>
      have : mid = [] := List.length_eq_zero.mp hm
      subst this
      simp [laco_resto_L]
  | cons x rest ih =>
    intro done pre mid st fuel hm hf
    cases fuel with
    | zero => simp at hf
    | succ f =>
      cases mid with
      | nil => simp at hm
      | cons m mid =>
        have hr := readBuf_at done rest x
        have hw := writeArr_at pre (mid ++ post) m x
        have hi := ih (done ++ [x]) (pre ++ [x]) mid (contar_movimentacao st) f
          (by simpa using hm) (by simpa using hf)
        simp only [List.append_assoc, List.singleton_append, List.length_append,
          List.length_singleton, List.length_cons, Nat.cast_add, Nat.cast_one,
          List.map_append, List.map_cons, List.map_nil, List.cons_append, List.nil_append,
          List.length_nil, Nat.cast_zero, zero_add] at hi hr hw ⊢
        rw [laco_resto_L]
        simp only [hr, hw]
        rw [if_pos (by omega), hi]
        simp [contar_movimentacao]
        omega

theorem laco_resto_R_spec (post : List Registro) (i : Int) :
    ∀ (rest done pre mid : List Registro) (st : Estatisticas) (fuel : Nat),
      mid.length = rest.length → rest.length < fuel →
      laco_resto_R ((done ++ rest).map some) ((done ++ rest).length : Int) fuel
          ⟨i, (done.length : Int), (pre.length : Int), pre ++ mid ++ post, st⟩
        = some ⟨i, ((done ++ rest).length : Int), ((pre ++ rest).length : Int),
            pre ++ rest ++ post,
            ⟨st.comparacoes, st.movimentacoes + rest.length, st.tempo_execucao⟩⟩ := by
  intro rest
  induction rest with
  | nil =>
    intro done pre mid st fuel hm hf
    cases fuel with
    | zero => simp at hf
    | succ f =>
      have : mid = [] := List.length_eq_zero.mp hm
      subst this
      simp [laco_resto_R]
  | cons x rest ih =>
    intro done pre mid st fuel hm hf
    cases fuel with
    | zero => simp at hf
    | succ f =>
      cases mid with
      | nil => simp at hm
      | cons m mid =>
        have hr := readBuf_at done rest x
        have hw := writeArr_at pre (mid ++ post) m x
        have hi := ih (done ++ [x]) (pre ++ [x]) mid (contar_movimentacao st) f
          (by simpa using hm) (by simpa using hf)
        simp only [List.append_assoc, List.singleton_append, List.length_append,
          List.length_singleton, List.length_cons, Nat.cast_add, Nat.cast_one,
          List.map_append, List.map_cons, List.map_nil, List.cons_append, List.nil_append,
          List.length_nil, Nat.cast_zero, zero_add] at hi hr hw ⊢
        rw [laco_resto_R]
        simp only [hr, hw]
        rw [if_pos (by omega), hi]
        simp [contar_movimentacao]
        omega

theorem nao_maior_iff (campo : Int) (a b : Registro) (st : Estatisticas) :
    (comparar_registros a b campo st).1 ≤ 0 ↔ nao_maior campo a b = true := by
  simp [nao_maior, comparar_registros_fst]

theorem escrita_spec (campo : Int) (post : List Registro) :
    ∀ (m : Nat) (xs ys doneL doneR pre mid : List Registro) (st : Estatisticas)
      (f1 f2 f3 : Nat),
      xs.length + ys.length = m → mid.length = m → m < f1 → xs.length < f2 →
      ys.length < f3 →
      ((laco_intercalar ((doneL ++ xs).map some) ((doneR ++ ys).map some)
          ((doneL ++ xs).length : Int) ((doneR ++ ys).length : Int) campo f1
          ⟨(doneL.length : Int), (doneR.length : Int), (pre.length : Int),
            pre ++ mid ++ post, st⟩).bind fun s1 =>
        (laco_resto_L ((doneL ++ xs).map some) ((doneL ++ xs).length : Int) f2 s1).bind
          fun s2 => laco_resto_R ((doneR ++ ys).map some) ((doneR ++ ys).length : Int) f3 s2)
        = some ⟨((doneL ++ xs).length : Int), ((doneR ++ ys).length : Int),
            ((pre ++ mid).length : Int),
            pre ++ intercala (nao_maior campo) xs ys ++ post,
            ⟨st.comparacoes + intercala_comps (nao_maior campo) xs ys,
              st.movimentacoes + m, st.tempo_execucao⟩⟩ := by
  intro m
  induction m with
  | zero =>
    intro xs ys doneL doneR pre mid st f1 f2 f3 hxy hm h1 h2 h3
    have hx : xs = [] := List.length_eq_zero.mp (by omega)
    have hy : ys = [] := List.length_eq_zero.mp (by omega)
    have hmid : mid = [] := List.length_eq_zero.mp hm
    subst hx hy hmid
    obtain ⟨g1, rfl⟩ : ∃ g, f1 = g + 1 := ⟨f1 - 1, by omega⟩
    obtain ⟨g2, rfl⟩ : ∃ g, f2 = g + 1 := ⟨f2 - 1, by omega⟩
    obtain ⟨g3, rfl⟩ : ∃ g, f3 = g + 1 := ⟨f3 - 1, by omega⟩
    simp [laco_intercalar, laco_resto_L, laco_resto_R, intercala, intercala_comps]
  | succ m ih =>
    intro xs ys doneL doneR pre mid st f1 f2 f3 hxy hm h1 h2 h3
    obtain ⟨g1, rfl⟩ : ∃ g, f1 = g + 1 := ⟨f1 - 1, by omega⟩
    cases xs with
    | nil =>
      have hL := laco_resto_L_spec (mid ++ post) (doneR.length : Int) [] doneL pre [] st f2
        rfl (by simpa using h2)
      have hR := laco_resto_R_spec post ((doneL ++ []).length : Int) ys doneR pre mid st f3
        (by simp at hxy; omega) h3
      simp only [List.append_nil, List.nil_append, List.append_assoc, List.length_nil,
        Nat.cast_zero, add_zero] at hL hR ⊢
      rw [laco_intercalar]
      simp only [lt_self_iff_false, false_and, if_false, Option.some_bind, Option.bind_some]
      rw [hL]
      simp only [Option.some_bind, Option.bind_some]
      rw [hR]
      simp [intercala, intercala_comps]
      simp at hxy
      omega
    | cons x xs =>
      cases ys with
      | nil =>
        have hL := laco_resto_L_spec post ((doneR ++ []).length : Int) (x :: xs) doneL pre mid
          st f2 (by simp at hxy ⊢; omega) h2
        obtain ⟨g3, rfl⟩ : ∃ g, f3 = g + 1 := ⟨f3 - 1, by omega⟩
        simp only [List.append_nil, List.nil_append, List.append_assoc, List.length_nil,
          Nat.cast_zero, add_zero] at hL ⊢
        rw [laco_intercalar]
        simp only [lt_self_iff_false, and_false, if_false, Option.some_bind, Option.bind_some]
        rw [hL]
        simp only [Option.some_bind, Option.bind_some]
        rw [laco_resto_R]
        simp [intercala, intercala_comps]
        simp at hxy
        omega
      | cons y ys =>
        cases mid with
        | nil => simp at hm
        | cons m0 mid =>
          have hrL := readBuf_at doneL xs x
          have hrR := readBuf_at doneR ys y
          have hwx := writeArr_at pre (mid ++ post) m0 x
          have hwy := writeArr_at pre (mid ++ post) m0 y
          simp only [List.length_cons] at hxy hm
          by_cases hle : nao_maior campo x y = true
          · have hi := ih xs (y :: ys) (doneL ++ [x]) doneR (pre ++ [x]) mid
              (contar_movimentacao (comparar_registros x y campo st).2) g1 f2 f3
              (by simp; omega) (by omega) (by omega) (by simp at h2; omega) h3
            have hc : (comparar_registros x y campo st).1 ≤ 0 :=
              (nao_maior_iff campo x y st).mpr hle
            simp only [List.append_assoc, List.singleton_append, List.length_append,
              List.length_singleton, List.length_cons, Nat.cast_add, Nat.cast_one,
              List.map_append, List.map_cons, List.map_nil, List.cons_append,
              List.nil_append, List.length_nil, Nat.cast_zero, zero_add] at hi hrL hrR hwx ⊢
            rw [laco_intercalar]
            simp only [hrL, hrR, hwx, hc, if_true]
            rw [if_pos (by constructor <;> omega), hi]
            simp [contar_movimentacao, comparar_registros_snd, intercala, intercala_comps, hle]
            constructor <;> omega
          · have hi := ih (x :: xs) ys doneL (doneR ++ [y]) (pre ++ [y]) mid
              (contar_movimentacao (comparar_registros x y campo st).2) g1 f2 f3
              (by simp; omega) (by omega) (by omega) h2 (by simp at h3; omega)
            have hc : ¬ (comparar_registros x y campo st).1 ≤ 0 :=
              fun h => hle ((nao_maior_iff campo x y st).mp h)
            simp only [List.append_assoc, List.singleton_append, List.length_append,
              List.length_singleton, List.length_cons, Nat.cast_add, Nat.cast_one,
              List.map_append, List.map_cons, List.map_nil, List.cons_append,
              List.nil_append, List.length_nil, Nat.cast_zero, zero_add] at hi hrL hrR hwy ⊢
            rw [laco_intercalar]
            simp only [hrL, hrR, hwy, hc, if_false]
            rw [if_pos (by constructor <;> omega), hi]
            simp [contar_movimentacao, comparar_registros_snd, intercala, intercala_comps, hle]
            constructor <;> omega

theorem merge_estado_spec (campo : Int) (pre xs ys post : List Registro)
    (left middle right : Int) (st : Estatisticas)
    (hl : left = (pre.length : Int))
    (hm : middle = (pre.length : Int) + (xs.length : Int) - 1)
    (hr : right = middle + (ys.length : Int)) :
    merge_estado (pre ++ xs ++ ys ++ post) left middle right campo st
      = some ⟨(xs.length : Int), (ys.length : Int), right + 1,
          pre ++ intercala (nao_maior campo) xs ys ++ post,
          ⟨st.comparacoes + intercala_comps (nao_maior campo) xs ys,
            st.movimentacoes + 2 * ((xs.length : Int) + (ys.length : Int)),
            st.tempo_execucao⟩⟩ := by
  subst hl
  have hn1 : middle - (pre.length : Int) + 1 = (xs.length : Int) := by omega
  have hn2 : right - middle = (ys.length : Int) := by omega
  have hm1 : middle + 1 = ((pre ++ xs).length : Int) := by simp; omega
  have hA := copiar_para_temp_spec pre (ys ++ post) xs [] (List.replicate xs.length none) st
    (xs.length + 1) (by simp) (by omega)
  have hB := copiar_para_temp_spec (pre ++ xs) post ys [] (List.replicate ys.length none)
    ⟨st.comparacoes, st.movimentacoes + xs.length, st.tempo_execucao⟩
    (ys.length + 1) (by simp) (by omega)
  have hC := escrita_spec campo post (xs.length + ys.length) xs ys [] [] pre (xs ++ ys)
    ⟨st.comparacoes, st.movimentacoes + xs.length + ys.length, st.tempo_execucao⟩
    (xs.length + ys.length + 1) (xs.length + 1) (ys.length + 1) rfl (by simp)
    (by omega) (by omega) (by omega)
  simp only [List.nil_append, List.length_nil, Nat.cast_zero, List.map_nil,
    List.append_assoc] at hA hB hC
  simp only [merge_estado, hn1, hn2, hm1, Int.toNat_natCast, malloc, List.append_assoc]
  rw [hA]
  simp only [Option.some_bind, Option.bind_some]
  rw [hB]
  simp only [Option.some_bind, Option.bind_some]
  rw [hC]
  simp
  omega

theorem merge_spec (campo : Int) (pre xs ys post : List Registro)
    (left middle right : Int) (st : Estatisticas)
    (hl : left = (pre.length : Int))
    (hm : middle = (pre.length : Int) + (xs.length : Int) - 1)
    (hr : right = middle + (ys.length : Int)) :
    merge (pre ++ xs ++ ys ++ post) left middle right campo st
      = some (pre ++ intercala (nao_maior campo) xs ys ++ post,
          ⟨st.comparacoes + intercala_comps (nao_maior campo) xs ys,
            st.movimentacoes + 2 * ((xs.length : Int) + (ys.length : Int)),
            st.tempo_execucao⟩) := by
  rw [merge, merge_estado_spec campo pre xs ys post left middle right st hl hm hr]
  rfl

theorem length_intercala {α : Type} (le : α → α → Bool) :
    ∀ xs ys : List α, (intercala le xs ys).length = xs.length + ys.length := by
  intro xs
  induction xs with
  | nil => intro ys; simp [intercala]
  | cons x xs ihx =>
    intro ys
    induction ys with
    | nil => simp [intercala]
    | cons y ys ihy =>
      rw [intercala]
      split_ifs
      · simp [ihx]; omega
      · simp [ihy]; omega

theorem metade_pos (n : Nat) : 0 < metade n := by
  unfold metade; omega

theorem metade_lt (n : Nat) (h : 2 ≤ n) : metade n < n := by
  unfold metade; omega

theorem length_ordena {α : Type} (le : α → α → Bool) :
    ∀ (f : Nat) (l : List α), (ordena le f l).length = l.length := by
  intro f
  induction f with
  | zero => intro l; rfl
  | succ f ih =>
    intro l
    rw [ordena]
    split_ifs with h
    · rfl
    · rw [length_intercala, ih, ih, List.length_take, List.length_drop]
      have := metade_lt l.length (by omega)
      omega

theorem split_metade {α : Type} (l : List α) (h : 2 ≤ l.length) :
    ∃ l1 l2 : List α, l = l1 ++ l2 ∧ l1.length = metade l.length ∧
      l.take (metade l.length) = l1 ∧ l.drop (metade l.length) = l2 := by
  refine ⟨l.take (metade l.length), l.drop (metade l.length),
    (List.take_append_drop _ _).symm, ?_, rfl, rfl⟩
  rw [List.length_take]
  have := metade_lt l.length h
  omega

theorem mergeSort_fuel_spec (campo : Int) :
    ∀ (f : Nat) (pre l post : List Registro) (left right : Int) (st : Estatisticas),
      left = (pre.length : Int) → right = (pre.length : Int) + (l.length : Int) - 1 →
      l.length ≤ f → 0 < f →
      mergeSort_fuel f (pre ++ l ++ post) left right campo st
        = some (pre ++ ordena (nao_maior campo) f l ++ post,
            ⟨st.comparacoes + ordena_comps (nao_maior campo) f l,
              st.movimentacoes + ordena_movs f l.length, st.tempo_execucao⟩) := by
  intro f
  induction f with
  | zero => intro pre l post left right st _ _ _ h0; omega
  | succ f ih =>
    intro pre l post left right st hl hr hf _
    by_cases h2 : l.length < 2
    · have hlr : ¬ left < right := by omega
      rw [mergeSort_fuel, if_neg hlr, ordena, if_pos h2, ordena_comps, if_pos h2,
        ordena_movs, if_pos h2]
      simp
    · have hlr : left < right := by omega
      obtain ⟨l1, l2, rfl, hl1, ht, hd⟩ := split_metade l (by omega)
      have hlt := metade_lt (l1 ++ l2).length (by omega)
      have hlen : (l1 ++ l2).length = l1.length + l2.length := List.length_append _ _
      have hmid : left + (right - left).tdiv 2 = (pre.length : Int) + (l1.length : Int) - 1 := by
        rw [Int.tdiv_eq_ediv (by omega) (by omega), hl1]
        unfold metade
        omega
      have hpos := metade_pos (l1 ++ l2).length
      have e1 := ih pre l1 (l2 ++ post) left (left + (right - left).tdiv 2) st hl hmid
        (by omega) (by omega)
      have e2 := ih (pre ++ ordena (nao_maior campo) f l1) l2 post
        (left + (right - left).tdiv 2 + 1) right
        ⟨st.comparacoes + ordena_comps (nao_maior campo) f l1,
          st.movimentacoes + ordena_movs f l1.length, st.tempo_execucao⟩
        (by rw [List.length_append, length_ordena]; push_cast; omega)
        (by rw [List.length_append, length_ordena]; push_cast; omega)
        (by omega) (by omega)
      have e3 := merge_spec campo pre (ordena (nao_maior campo) f l1)
        (ordena (nao_maior campo) f l2) post left (left + (right - left).tdiv 2) right
        ⟨st.comparacoes + ordena_comps (nao_maior campo) f l1
            + ordena_comps (nao_maior campo) f l2,
          st.movimentacoes + ordena_movs f l1.length + ordena_movs f l2.length,
          st.tempo_execucao⟩
        hl (by rw [length_ordena]; omega) (by rw [length_ordena]; omega)
      rw [mergeSort_fuel, if_pos hlr]
      simp only [List.append_assoc] at e1 e2 e3 ⊢
      simp only [e1, e2, e3]
      rw [ordena, if_neg h2, ordena_comps, if_neg h2, ordena_movs, if_neg h2, ht, hd]
      simp only [length_ordena]
      have hsub : (l1 ++ l2).length - metade (l1 ++ l2).length = l2.length := by omega
      rw [hsub, ← hl1]
      simp
      constructor <;> omega


/-! ## The comparator is antisymmetric -/

theorem strcmp_swap : ∀ s t : CString, strcmp t s = - strcmp s t := by
  intro s
  induction s with
  | nil => intro t; cases t <;> simp [strcmp]
  | cons a s ih =>
    intro t
    cases t with
    | nil => simp [strcmp]
    | cons b t =>
      simp only [strcmp]
      by_cases h1 : a < b
      · have h2 : ¬ b < a := by omega
        simp [h1, h2]
      · by_cases h2 : b < a
        · simp [h1, h2]
        · simp [h1, h2, ih t]

theorem double_swap (x y : Double) :
    (if Double.lt y x then (-1 : Int) else if Double.gt y x then 1 else 0)
      = - (if Double.lt x y then (-1 : Int) else if Double.gt x y then 1 else 0) := by
  by_cases hx : x.isNaN = true
  · simp [Double.lt, Double.gt, hx]
  · by_cases hy : y.isNaN = true
    · simp [Double.lt, Double.gt, hy]
    · simp only [Double.lt, Double.gt, hx, hy]
      by_cases h1 : x.rank < y.rank
      · have h2 : ¬ y.rank < x.rank := by omega
        simp [h1, h2]
      · by_cases h2 : y.rank < x.rank
        · simp [h1, h2]
        · simp [h1, h2]

theorem valor_comparacao_swap (campo : Int) (a b : Registro) :
    valor_comparacao campo b a = - valor_comparacao campo a b := by
  unfold valor_comparacao comparar_registros
  simp only
  by_cases h1 : campo = 1
  · simp only [h1, if_true]; exact strcmp_swap _ _
  by_cases h2 : campo = 2
  · simp only [h1, h2, if_true, if_false]; exact strcmp_swap _ _
  by_cases h3 : campo = 3
  · simp only [h1, h2, h3, if_true, if_false]; exact double_swap _ _
  by_cases h4 : campo = 4
  · simp only [h1, h2, h3, h4, if_true, if_false]; exact double_swap _ _
  by_cases h5 : campo = 5
  · simp only [h1, h2, h3, h4, h5, if_true, if_false]; exact strcmp_swap _ _
  by_cases h6 : campo = 6
  · simp only [h1, h2, h3, h4, h5, h6, if_true, if_false]; exact strcmp_swap _ _
  by_cases h7 : campo = 7
  · simp only [h1, h2, h3, h4, h5, h6, h7, if_true, if_false]; exact strcmp_swap _ _
  by_cases h8 : campo = 8
  · simp only [h1, h2, h3, h4, h5, h6, h7, h8, if_true, if_false]; exact strcmp_swap _ _
  by_cases h9 : campo = 9
  · simp only [h1, h2, h3, h4, h5, h6, h7, h8, h9, if_true, if_false]; exact strcmp_swap _ _
  simp only [h1, h2, h3, h4, h5, h6, h7, h8, h9, if_false]
  rfl

theorem nao_maior_total (campo : Int) (a b : Registro)
    (h : nao_maior campo a b = false) : nao_maior campo b a = true := by
  unfold nao_maior at h ⊢
  rw [valor_comparacao_swap campo a b]
  simp at h ⊢
  omega

/-! ## The list view: permutation, order, counts -/

theorem perm_intercala {α : Type} (le : α → α → Bool) :
    ∀ xs ys : List α, (intercala le xs ys).Perm (xs ++ ys) := by
  intro xs
  induction xs with
  | nil => intro ys; simp [intercala]
  | cons x xs ihx =>
    intro ys
    induction ys with
    | nil => simp [intercala]
    | cons y ys ihy =>
      rw [intercala]
      split_ifs
      · exact (ihx (y :: ys)).cons x
      · exact (ihy.cons y).trans List.perm_middle.symm

theorem perm_ordena {α : Type} (le : α → α → Bool) :
    ∀ (f : Nat) (l : List α), (ordena le f l).Perm l := by
  intro f
  induction f with
  | zero => intro l; exact List.Perm.refl _
  | succ f ih =>
    intro l
    rw [ordena]
    split_ifs with h
    · exact List.Perm.refl _
    · refine (perm_intercala le _ _).trans ?_
      refine ((ih _).append (ih _)).trans ?_
      rw [List.take_append_drop]

theorem chain_intercala {α : Type} (le : α → α → Bool)
    (htot : ∀ a b, le a b = false → le b a = true) :
    ∀ (xs ys : List α) (z : α),
      List.Chain (fun a b => le a b = true) z xs →
      List.Chain (fun a b => le a b = true) z ys →
      List.Chain (fun a b => le a b = true) z (intercala le xs ys) := by
  intro xs
  induction xs with
  | nil => intro ys z _ hy; simpa [intercala] using hy
  | cons x xs ihx =>
    intro ys
    induction ys with
    | nil => intro z hx _; simpa [intercala] using hx
    | cons y ys ihy =>
      intro z hx hy
      rw [intercala]
      rw [List.chain_cons] at hx hy
      split_ifs with hle
      · exact List.Chain.cons hx.1 (ihx (y :: ys) x hx.2 (List.Chain.cons hle hy.2))
      · have hyx : le y x = true := htot x y (by simpa using hle)
        exact List.Chain.cons hy.1 (ihy y (List.Chain.cons hyx hx.2) hy.2)

theorem chain'_intercala {α : Type} (le : α → α → Bool)
    (htot : ∀ a b, le a b = false → le b a = true) (xs ys : List α)
    (hx : List.Chain' (fun a b => le a b = true) xs)
    (hy : List.Chain' (fun a b => le a b = true) ys) :
    List.Chain' (fun a b => le a b = true) (intercala le xs ys) := by
  cases xs with
  | nil => simpa [intercala] using hy
  | cons x xs =>
    cases ys with
    | nil => simpa [intercala] using hx
    | cons y ys =>
      rw [intercala]
      split_ifs with hle
      · exact chain_intercala le htot xs (y :: ys) x hx (List.Chain.cons hle hy)
      · have hyx : le y x = true := htot x y (by simpa using hle)
        exact chain_intercala le htot (x :: xs) ys y (List.Chain.cons hyx hx) hy

theorem chain'_short {α : Type} (R : α → α → Prop) (l : List α) (h : l.length < 2) :
    List.Chain' R l := by
  match l, h with
  | [], _ => exact List.chain'_nil
  | [a], _ => exact List.chain'_singleton a

theorem chain'_ordena {α : Type} (le : α → α → Bool)
    (htot : ∀ a b, le a b = false → le b a = true) :
    ∀ (f : Nat) (l : List α), l.length ≤ f →
      List.Chain' (fun a b => le a b = true) (ordena le f l) := by
  intro f
  induction f with
  | zero =>
    intro l hl
    exact chain'_short _ _ (by rw [length_ordena]; omega)
  | succ f ih =>
    intro l hl
    rw [ordena]
    split_ifs with h
    · exact chain'_short _ _ h
    · have := metade_lt l.length (by omega)
      have hp := metade_pos l.length
      exact chain'_intercala le htot _ _
        (ih _ (by rw [List.length_take]; omega))
        (ih _ (by rw [List.length_drop]; omega))

theorem one_le_intercala_comps {α : Type} (le : α → α → Bool) (xs ys : List α)
    (hx : xs ≠ []) (hy : ys ≠ []) : 1 ≤ intercala_comps le xs ys := by
  cases xs with
  | nil => exact absurd rfl hx
  | cons x xs =>
    cases ys with
    | nil => exact absurd rfl hy
    | cons y ys =>
      rw [intercala_comps]
      split_ifs <;> omega

theorem le_ordena_comps {α : Type} (le : α → α → Bool) :
    ∀ (f : Nat) (l : List α), l.length ≤ f → l.length - 1 ≤ ordena_comps le f l := by
  intro f
  induction f with
  | zero => intro l hl; omega
  | succ f ih =>
    intro l hl
    rw [ordena_comps]
    split_ifs with h
    · omega
    · have hlt := metade_lt l.length (by omega)
      have hp := metade_pos l.length
      have h1 := ih (l.take (metade l.length)) (by rw [List.length_take]; omega)
      have h2 := ih (l.drop (metade l.length)) (by rw [List.length_drop]; omega)
      have e1 : (l.take (metade l.length)).length = metade l.length := by
        rw [List.length_take]; omega
      have e2 : (l.drop (metade l.length)).length = l.length - metade l.length :=
        List.length_drop _ _
      have h3 := one_le_intercala_comps le (ordena le f (l.take (metade l.length)))
        (ordena le f (l.drop (metade l.length)))
        (by
          intro h0
          have := congrArg List.length h0
          rw [length_ordena, e1, List.length_nil] at this
          omega)
        (by
          intro h0
          have := congrArg List.length h0
          rw [length_ordena, e2, List.length_nil] at this
          omega)
      omega

theorem chain'_get {α : Type} (R : α → α → Prop) :
    ∀ (l : List α), List.Chain' R l → ∀ (i : Nat) (a b : α),
      l[i]? = some a → l[i + 1]? = some b → R a b := by
  intro l
  induction l with
  | nil => intro _ i a b ha _; simp at ha
  | cons x t ih =>
    intro h i a b ha hb
    cases t with
    | nil => simp at hb
    | cons y t =>
      rw [List.chain'_cons] at h
      cases i with
      | zero =>
        simp at ha hb
        subst ha hb
        exact h.1
      | succ i =>
        simp only [List.getElem?_cons_succ] at ha hb
        exact ih h.2 i a b ha (by simpa using hb)

theorem chain'_of_get {α : Type} (R : α → α → Prop) :
    ∀ (l : List α), (∀ (i : Nat) (a b : α), l[i]? = some a → l[i + 1]? = some b → R a b) →
      List.Chain' R l := by
  intro l
  induction l with
  | nil => intro _; exact List.chain'_nil
  | cons x t ih =>
    intro h
    cases t with
    | nil => exact List.chain'_singleton x
    | cons y t =>
      rw [List.chain'_cons]
      refine ⟨h 0 x y (by simp) (by simp), ih ?_⟩
      intro i a b ha hb
      exact h (i + 1) a b (by simpa using ha) (by simpa using hb)

theorem mergeSort_spec (campo : Int) (arr : List Registro) (st : Estatisticas) :
    ∃ f : Nat, arr.length ≤ f ∧
      mergeSort arr 0 ((arr.length : Int) - 1) campo st
        = some (ordena (nao_maior campo) f arr,
            ⟨st.comparacoes + ordena_comps (nao_maior campo) f arr,
              st.movimentacoes + ordena_movs f arr.length, st.tempo_execucao⟩) := by
  refine ⟨(((arr.length : Int) - 1 - 0).toNat + 1), by omega, ?_⟩
  have h := mergeSort_fuel_spec campo (((arr.length : Int) - 1 - 0).toNat + 1) [] arr [] 0
    ((arr.length : Int) - 1) st (by simp) (by simp) (by omega) (by omega)
  simpa [mergeSort] using h

theorem getElem?_mid {α : Type} (pre xs post : List α) (i : Nat) (h : i < xs.length) :
    (pre ++ xs ++ post)[pre.length + i]? = xs[i]? := by
  rw [List.append_assoc, List.getElem?_append_right (by omega)]
  have : pre.length + i - pre.length = i := by omega
  rw [this, List.getElem?_append_left h]

theorem decompor (arr : List Registro) (left middle right : Int)
    (h0 : 0 ≤ left) (h1 : left ≤ middle + 1) (h2 : middle ≤ right)
    (h3 : right < (arr.length : Int)) :
    ∃ pre xs ys post : List Registro, arr = pre ++ xs ++ ys ++ post ∧
      left = (pre.length : Int) ∧ middle = (pre.length : Int) + (xs.length : Int) - 1 ∧
      right = middle + (ys.length : Int) := by
  refine ⟨arr.take left.toNat, (arr.drop left.toNat).take (middle + 1 - left).toNat,
    ((arr.drop left.toNat).drop (middle + 1 - left).toNat).take (right - middle).toNat,
    ((arr.drop left.toNat).drop (middle + 1 - left).toNat).drop (right - middle).toNat,
    ?_, ?_, ?_, ?_⟩
  · simp only [List.append_assoc, List.take_append_drop]
  · rw [List.length_take]; omega
  · rw [List.length_take, List.length_take, List.length_drop]; omega
  · rw [List.length_take, List.length_drop, List.length_drop]; omega

/-! ## Sorting: order, permutation, base case, counters -/

/-- C1 (sortedness).  For every record array and every field key (the keys 1..9
included), `mergeSort(arr, 0, n-1, campo)` returns, the array keeps its length,
and every adjacent pair `out[i]`, `out[i+1]` of the result satisfies
`comparar_registros(out[i], out[i+1], campo) <= 0`.  The records with latitudes
5.0, 3.0, 4.0, 1.0, 2.0 come out in the order 1.0, 2.0, 3.0, 4.0, 5.0. -/
theorem mergeSort_sorted :
    (∀ (arr : List Registro) (campo : Int) (st : Estatisticas),
      ∃ out st1, mergeSort arr 0 ((arr.length : Int) - 1) campo st = some (out, st1) ∧
        out.length = arr.length ∧
        ∀ (i : Nat) (a b : Registro), out[i]? = some a → out[i + 1]? = some b →
          ∀ s : Estatisticas, (comparar_registros a b campo s).1 ≤ 0) ∧
    (mergeSort [reg_lat d5 65, reg_lat d3 66, reg_lat d4 67, reg_lat d1 68, reg_lat d2 69]
        0 4 3 stats_zero).map Prod.fst
      = some [reg_lat d1 68, reg_lat d2 69, reg_lat d3 66, reg_lat d4 67, reg_lat d5 65] := by
  refine ⟨?_, by decide⟩
  intro arr campo st
  obtain ⟨f, hf, h⟩ := mergeSort_spec campo arr st
  refine ⟨_, _, h, length_ordena _ _ _, ?_⟩
  intro i a b ha hb s
  have hc := chain'_ordena (nao_maior campo) (nao_maior_total campo) f arr hf
  exact (nao_maior_iff campo a b s).mpr (chain'_get _ _ hc i a b ha hb)

/-- C3 (permutation preservation).  For every record array and every field key,
also one outside 1..9, `mergeSort(arr, 0, n-1, campo)` returns an array that is a
permutation of its input: the same records, each as often as before. -/
theorem mergeSort_perm (arr : List Registro) (campo : Int) (st : Estatisticas) :
    ∃ out st1, mergeSort arr 0 ((arr.length : Int) - 1) campo st = some (out, st1) ∧
      out.Perm arr := by
  obtain ⟨f, _, h⟩ := mergeSort_spec campo arr st
  exact ⟨_, _, h, perm_ordena _ _ _⟩

/-- C5 (base case).  For every array, field key and indices with `left >= right`,
`mergeSort` returns the array unchanged and adds nothing to either counter. -/
theorem mergeSort_base (arr : List Registro) (left right campo : Int)
    (st : Estatisticas) (h : right ≤ left) :
    mergeSort arr left right campo st = some (arr, st) := by
  have hlt : ¬ left < right := by omega
  rw [mergeSort, mergeSort_fuel, if_neg hlt]

/-- C5 at its two named inputs: the empty array with `right = -1` and a one-record
array with `left = right = 0`. -/
theorem mergeSort_base_witness :
    mergeSort [] 0 (-1) 3 stats_zero = some ([], stats_zero) ∧
    mergeSort [reg_lat d1 65] 0 0 3 stats_zero = some ([reg_lat d1 65], stats_zero) :=
  ⟨mergeSort_base [] 0 (-1) 3 stats_zero (by decide),
   mergeSort_base [reg_lat d1 65] 0 0 3 stats_zero (by decide)⟩

/-- C9 (counter exactness).  From counters at zero, sorting the three records with
numeric keys 3, 1, 2 by that numeric field (latitude, key 3) ends with exactly 3
comparisons and exactly 10 movements, and with the records in the order 1, 2, 3. -/
theorem mergeSort_tres_registros :
    mergeSort [reg_lat d3 65, reg_lat d1 66, reg_lat d2 67] 0 2 3 stats_zero
      = some ([reg_lat d1 66, reg_lat d2 67, reg_lat d3 65], ⟨3, 10, ⟨0⟩⟩) := by
  decide

/-- C10 (comparator counting).  Every call of `comparar_registros`, for every pair
of records and every integer `campo`, adds exactly 1 to the comparison counter and
leaves the movement counter and the elapsed time as they were; the records are
read-only arguments, the call yields nothing but its result and the counters. -/
theorem comparar_registros_conta (a b : Registro) (campo : Int) (st : Estatisticas) :
    (comparar_registros a b campo st).2
      = ⟨st.comparacoes + 1, st.movimentacoes, st.tempo_execucao⟩ :=
  comparar_registros_snd a b campo st

/-- C8 (movements of one merge).  For every array, field key and indices
`0 <= left <= middle < right < n`, the call `merge(arr, left, middle, right, campo)`
returns and adds exactly `2 * (right - left + 1)` to the movement counter, whatever
the records are. -/
theorem merge_movimentacoes (arr : List Registro) (left middle right campo : Int)
    (st : Estatisticas) (h0 : 0 ≤ left) (h1 : left ≤ middle) (h2 : middle < right)
    (h3 : right < (arr.length : Int)) :
    ∃ out st1, merge arr left middle right campo st = some (out, st1) ∧
      st1.movimentacoes = st.movimentacoes + 2 * (right - left + 1) := by
  obtain ⟨pre, xs, ys, post, rfl, hl, hm, hr⟩ :=
    decompor arr left middle right h0 (by omega) (by omega) h3
  refine ⟨_, _, merge_spec campo pre xs ys post left middle right st hl hm hr, ?_⟩
  show st.movimentacoes + 2 * ((xs.length : Int) + (ys.length : Int)) = _
  omega

/-- C8 at a concrete input: merging the two one-record runs of a two-record array
adds `2 * 2 = 4` movements. -/
theorem merge_movimentacoes_witness :
    ∃ out st1, merge [reg_lat d2 65, reg_lat d1 66] 0 0 1 3 stats_zero = some (out, st1) ∧
      st1.movimentacoes = stats_zero.movimentacoes + 2 * (1 - 0 + 1) :=
  merge_movimentacoes [reg_lat d2 65, reg_lat d1 66] 0 0 1 3 stats_zero
    (by decide) (by decide) (by decide) (by decide)

/-- C4 (merge post-condition).  For every array, field key and indices
`0 <= left <= middle < right < n`: if every adjacent pair inside `arr[left..middle]`
and every adjacent pair inside `arr[middle+1..right]` is in order
(`comparar_registros <= 0`), then `merge(arr, left, middle, right, campo)` returns,
the array keeps its length, and every adjacent pair inside `arr[left..right]` is
in order afterwards. -/
theorem merge_sorted (arr : List Registro) (left middle right campo : Int)
    (st : Estatisticas) (h0 : 0 ≤ left) (h1 : left ≤ middle) (h2 : middle < right)
    (h3 : right < (arr.length : Int))
    (hL : ∀ (i : Nat) (a b : Registro), left ≤ (i : Int) → (i : Int) < middle →
      arr[i]? = some a → arr[i + 1]? = some b → (comparar_registros a b campo st).1 ≤ 0)
    (hR : ∀ (i : Nat) (a b : Registro), middle + 1 ≤ (i : Int) → (i : Int) < right →
      arr[i]? = some a → arr[i + 1]? = some b → (comparar_registros a b campo st).1 ≤ 0) :
    ∃ out st1, merge arr left middle right campo st = some (out, st1) ∧
      out.length = arr.length ∧
      ∀ (i : Nat) (a b : Registro), left ≤ (i : Int) → (i : Int) < right →
        out[i]? = some a → out[i + 1]? = some b →
        ∀ s : Estatisticas, (comparar_registros a b campo s).1 ≤ 0 := by
  obtain ⟨pre, xs, ys, post, rfl, hl, hm, hr⟩ :=
    decompor arr left middle right h0 (by omega) (by omega) h3
  have hxs : List.Chain' (fun a b => nao_maior campo a b = true) xs := by
    apply chain'_of_get
    intro i a b ha hb
    have hi : i + 1 < xs.length := by
      by_contra hc
      rw [List.getElem?_eq_none (by omega)] at hb
      exact absurd hb (by simp)
    have e1 := getElem?_mid pre xs (ys ++ post) i (by omega)
    have e2 := getElem?_mid pre xs (ys ++ post) (i + 1) hi
    simp only [← List.append_assoc] at e1 e2
    refine (nao_maior_iff campo a b st).mp
      (hL (pre.length + i) a b (by push_cast; omega) (by push_cast; omega)
        (by rw [e1]; exact ha) (by rw [Nat.add_assoc, e2]; exact hb))
  have hys : List.Chain' (fun a b => nao_maior campo a b = true) ys := by
    apply chain'_of_get
    intro i a b ha hb
    have hi : i + 1 < ys.length := by
      by_contra hc
      rw [List.getElem?_eq_none (by omega)] at hb
      exact absurd hb (by simp)
    have e1 := getElem?_mid (pre ++ xs) ys post i (by omega)
    have e2 := getElem?_mid (pre ++ xs) ys post (i + 1) hi
    rw [List.length_append] at e1 e2
    refine (nao_maior_iff campo a b st).mp
      (hR (pre.length + xs.length + i) a b (by push_cast; omega) (by push_cast; omega)
        (by rw [e1]; exact ha) (by rw [Nat.add_assoc, e2]; exact hb))
  have hc := chain'_intercala (nao_maior campo) (nao_maior_total campo) xs ys hxs hys
  refine ⟨_, _, merge_spec campo pre xs ys post left middle right st hl hm hr, ?_, ?_⟩
  · simp only [List.length_append, length_intercala]
    omega
  · intro i a b hli hir ha hb s
    have hlen := length_intercala (nao_maior campo) xs ys
    have hi : i - pre.length + 1 < (intercala (nao_maior campo) xs ys).length := by omega
    have e1 := getElem?_mid pre (intercala (nao_maior campo) xs ys) post (i - pre.length)
      (by omega)
    have e2 := getElem?_mid pre (intercala (nao_maior campo) xs ys) post
      (i - pre.length + 1) hi
    have x1 : pre.length + (i - pre.length) = i := by omega
    have x2 : pre.length + (i - pre.length + 1) = i + 1 := by omega
    rw [x1] at e1
    rw [x2] at e2
    rw [e1] at ha
    rw [e2] at hb
    exact (nao_maior_iff campo a b s).mpr (chain'_get _ _ hc _ a b ha hb)

/-- C4 at a concrete input: the runs `[1.0, 3.0]` and `[2.0, 4.0]` of a four-record
array are merged into an ordered range. -/
theorem merge_sorted_witness :
    ∃ out st1,
      merge [reg_lat d1 65, reg_lat d3 66, reg_lat d2 67, reg_lat d4 68] 0 1 3 3 stats_zero
        = some (out, st1) ∧
      out.length = [reg_lat d1 65, reg_lat d3 66, reg_lat d2 67, reg_lat d4 68].length ∧
      ∀ (i : Nat) (a b : Registro), (0 : Int) ≤ (i : Int) → (i : Int) < 3 →
        out[i]? = some a → out[i + 1]? = some b →
        ∀ s : Estatisticas, (comparar_registros a b 3 s).1 ≤ 0 :=
  merge_sorted [reg_lat d1 65, reg_lat d3 66, reg_lat d2 67, reg_lat d4 68] 0 1 3 3 stats_zero
    (by decide) (by decide) (by decide) (by decide)
    (by
      intro i a b h1 h2 ha hb
      have hi : i = 0 := by omega
      subst hi
      simp at ha hb
      subst ha hb
      decide)
    (by
      intro i a b h1 h2 ha hb
      have hi : i = 2 := by omega
      subst hi
      simp at ha hb
      subst ha hb
      decide)

/-- C7 (no early exit).  For every array of `n >= 1` records, in particular every
one that is already sorted by `campo`, `mergeSort(arr, 0, n-1, campo)` returns and
adds at least `n - 1` to the comparison counter. -/
theorem mergeSort_comparacoes_min (arr : List Registro) (campo : Int) (st : Estatisticas)
    (hn : 1 ≤ arr.length) :
    ∃ out st1, mergeSort arr 0 ((arr.length : Int) - 1) campo st = some (out, st1) ∧
      st.comparacoes + ((arr.length : Int) - 1) ≤ st1.comparacoes := by
  obtain ⟨f, hf, h⟩ := mergeSort_spec campo arr st
  refine ⟨_, _, h, ?_⟩
  have := le_ordena_comps (nao_maior campo) f arr hf
  show st.comparacoes + ((arr.length : Int) - 1)
    ≤ st.comparacoes + (ordena_comps (nao_maior campo) f arr : Int)
  omega

/-- C7 at a concrete input: the already sorted records with latitudes 1.0, 2.0, 3.0
cost at least 2 comparisons. -/
theorem mergeSort_comparacoes_min_witness :
    ∃ out st1,
      mergeSort [reg_lat d1 65, reg_lat d2 66, reg_lat d3 67]
        0 (([reg_lat d1 65, reg_lat d2 66, reg_lat d3 67].length : Int) - 1) 3 stats_zero
        = some (out, st1) ∧
      stats_zero.comparacoes
        + (([reg_lat d1 65, reg_lat d2 66, reg_lat d3 67].length : Int) - 1)
        ≤ st1.comparacoes :=
  mergeSort_comparacoes_min [reg_lat d1 65, reg_lat d2 66, reg_lat d3 67] 3 stats_zero
    (by decide)

/-! ## Where the comparator is a total preorder -/

theorem strcmp_trans : ∀ s t u : CString, strcmp s t ≤ 0 → strcmp t u ≤ 0 → strcmp s u ≤ 0 := by
  intro s
  induction s with
  | nil => intro t u _ _; cases u <;> simp [strcmp]
  | cons a s ih =>
    intro t u h1 h2
    cases t with
    | nil => simp [strcmp] at h1
    | cons b t =>
      cases u with
      | nil => simp [strcmp] at h2
      | cons c u =>
        simp only [strcmp] at h1 h2 ⊢
        by_cases hab : a < b
        · by_cases hbc : b < c
          · have hac : a < c := by omega
            simp [hac]
          · by_cases hcb : c < b
            · simp [hbc, hcb] at h2
            · have hac : a < c := by omega
              simp [hac]
        · by_cases hba : b < a
          · simp [hab, hba] at h1
          · have e : a = b := by omega
            subst e
            by_cases hbc : a < c
            · simp [hbc]
            · by_cases hcb : c < a
              · simp [hbc, hcb] at h2
              · simp only [hab, hbc, hcb, if_false] at h1 h2 ⊢
                exact ih t u h1 h2

theorem double_trans (x y z : Double) (hy : y.isNaN = false)
    (h1 : (if Double.lt x y then (-1 : Int) else if Double.gt x y then 1 else 0) ≤ 0)
    (h2 : (if Double.lt y z then (-1 : Int) else if Double.gt y z then 1 else 0) ≤ 0) :
    (if Double.lt x z then (-1 : Int) else if Double.gt x z then 1 else 0) ≤ 0 := by
  by_cases hx : x.isNaN = true
  · simp [Double.lt, Double.gt, hx]
  · by_cases hz : z.isNaN = true
    · simp [Double.lt, Double.gt, hz]
    · simp only [Bool.not_eq_true] at hx hz
      simp only [Double.lt, Double.gt, hx, hy, hz, Bool.not_false, Bool.true_and,
        decide_eq_true_eq] at h1 h2 ⊢
      split_ifs at h1 h2 ⊢ <;> omega

theorem nao_maior_trans (campo : Int) (a b c : Registro)
    (hb : chave_sem_nan campo b = true)
    (h1 : nao_maior campo a b = true) (h2 : nao_maior campo b c = true) :
    nao_maior campo a c = true := by
  unfold nao_maior valor_comparacao comparar_registros at h1 h2 ⊢
  unfold chave_sem_nan at hb
  simp only [decide_eq_true_eq] at h1 h2 ⊢
  by_cases c1 : campo = 1
  · simp only [c1, if_true] at h1 h2 ⊢; exact strcmp_trans _ _ _ h1 h2
  by_cases c2 : campo = 2
  · simp only [c1, c2, if_true, if_false] at h1 h2 ⊢; exact strcmp_trans _ _ _ h1 h2
  by_cases c3 : campo = 3
  · simp only [c1, c2, c3, if_true, if_false] at h1 h2 hb ⊢
    exact double_trans _ _ _ (by simpa using hb) h1 h2
  by_cases c4 : campo = 4
  · simp only [c1, c2, c3, c4, if_true, if_false] at h1 h2 hb ⊢
    exact double_trans _ _ _ (by simpa using hb) h1 h2
  by_cases c5 : campo = 5
  · simp only [c1, c2, c3, c4, c5, if_true, if_false] at h1 h2 ⊢
    exact strcmp_trans _ _ _ h1 h2
  by_cases c6 : campo = 6
  · simp only [c1, c2, c3, c4, c5, c6, if_true, if_false] at h1 h2 ⊢
    exact strcmp_trans _ _ _ h1 h2
  by_cases c7 : campo = 7
  · simp only [c1, c2, c3, c4, c5, c6, c7, if_true, if_false] at h1 h2 ⊢
    exact strcmp_trans _ _ _ h1 h2
  by_cases c8 : campo = 8
  · simp only [c1, c2, c3, c4, c5, c6, c7, c8, if_true, if_false] at h1 h2 ⊢
    exact strcmp_trans _ _ _ h1 h2
  by_cases c9 : campo = 9
  · simp only [c1, c2, c3, c4, c5, c6, c7, c8, c9, if_true, if_false] at h1 h2 ⊢
    exact strcmp_trans _ _ _ h1 h2
  simp only [c1, c2, c3, c4, c5, c6, c7, c8, c9, if_false]
  exact le_refl _

theorem nao_maior_refl (campo : Int) (a : Registro) : nao_maior campo a a = true := by
  by_contra h
  exact h (nao_maior_total campo a a (by simpa using h))

/-! ## The list view: order and stability under a total preorder

`S` marks the elements on which `le` is transitive. -/

theorem mem_intercala {α : Type} (le : α → α → Bool) (xs ys : List α) (z : α) :
    z ∈ intercala le xs ys ↔ z ∈ xs ∨ z ∈ ys := by
  rw [(perm_intercala le xs ys).mem_iff, List.mem_append]

theorem mem_ordena {α : Type} (le : α → α → Bool) (f : Nat) (l : List α) (z : α) :
    z ∈ ordena le f l ↔ z ∈ l :=
  (perm_ordena le f l).mem_iff

theorem pairwise_intercala {α : Type} (le : α → α → Bool) (S : α → Prop)
    (htot : ∀ a b, le a b = false → le b a = true)
    (htr : ∀ a b c, S b → le a b = true → le b c = true → le a c = true) :
    ∀ (xs ys : List α), (∀ z ∈ xs, S z) → (∀ z ∈ ys, S z) →
      xs.Pairwise (fun a b => le a b = true) → ys.Pairwise (fun a b => le a b = true) →
      (intercala le xs ys).Pairwise (fun a b => le a b = true) := by
  intro xs
  induction xs with
  | nil => intro ys _ _ _ hy; simpa [intercala] using hy
  | cons x xs ihx =>
    intro ys
    induction ys with
    | nil => intro _ _ hx _; simpa [intercala] using hx
    | cons y ys ihy =>
      intro sx sy hx hy
      rw [intercala]
      rw [List.pairwise_cons] at hx hy
      split_ifs with hle
      · rw [List.pairwise_cons]
        refine ⟨?_, ihx (y :: ys) (fun z hz => sx z (List.mem_cons_of_mem _ hz)) sy hx.2
          (List.pairwise_cons.mpr hy)⟩
        intro z hz
        rcases (mem_intercala le xs (y :: ys) z).mp hz with h | h
        · exact hx.1 z h
        · rcases List.mem_cons.mp h with h | h
          · rw [h]; exact hle
          · exact htr x y z (sy y (List.mem_cons_self _ _)) hle (hy.1 z h)
      · have hyx : le y x = true := htot x y (by simpa using hle)
        rw [List.pairwise_cons]
        refine ⟨?_, ihy sx (fun z hz => sy z (List.mem_cons_of_mem _ hz))
          (List.pairwise_cons.mpr hx) hy.2⟩
        intro z hz
        rcases (mem_intercala le (x :: xs) ys z).mp hz with h | h
        · rcases List.mem_cons.mp h with h | h
          · rw [h]; exact hyx
          · exact htr y x z (sx x (List.mem_cons_self _ _)) hyx (hx.1 z h)
        · exact hy.1 z h

theorem pairwise_short {α : Type} (R : α → α → Prop) (l : List α) (h : l.length < 2) :
    l.Pairwise R := by
  match l, h with
  | [], _ => exact List.Pairwise.nil
  | [a], _ => exact List.pairwise_singleton R a

theorem pairwise_ordena {α : Type} (le : α → α → Bool) (S : α → Prop)
    (htot : ∀ a b, le a b = false → le b a = true)
    (htr : ∀ a b c, S b → le a b = true → le b c = true → le a c = true) :
    ∀ (f : Nat) (l : List α), l.length ≤ f → (∀ z ∈ l, S z) →
      (ordena le f l).Pairwise (fun a b => le a b = true) := by
  intro f
  induction f with
  | zero =>
    intro l hl _
    exact pairwise_short _ _ (by rw [length_ordena]; omega)
  | succ f ih =>
    intro l hl hS
    rw [ordena]
    split_ifs with h
    · exact pairwise_short _ _ h
    · have := metade_lt l.length (by omega)
      have hp := metade_pos l.length
      have s1 : ∀ z ∈ l.take (metade l.length), S z :=
        fun z hz => hS z (List.mem_of_mem_take hz)
      have s2 : ∀ z ∈ l.drop (metade l.length), S z :=
        fun z hz => hS z (List.mem_of_mem_drop hz)
      exact pairwise_intercala le S htot htr _ _
        (fun z hz => s1 z ((mem_ordena le f _ z).mp hz))
        (fun z hz => s2 z ((mem_ordena le f _ z).mp hz))
        (ih _ (by rw [List.length_take]; omega) s1)
        (ih _ (by rw [List.length_drop]; omega) s2)

theorem intercala_append {α : Type} (le : α → α → Bool) :
    ∀ (xs ys : List α), (∀ x ∈ xs, ∀ y ∈ ys, le x y = true) →
      intercala le xs ys = xs ++ ys := by
  intro xs
  induction xs with
  | nil => intro ys _; simp [intercala]
  | cons x xs ih =>
    intro ys h
    cases ys with
    | nil => simp [intercala]
    | cons y ys =>
      rw [intercala, if_pos (h x (List.mem_cons_self _ _) y (List.mem_cons_self _ _)),
        ih (y :: ys) (fun a ha b hb => h a (List.mem_cons_of_mem _ ha) b hb)]
      rfl

theorem ordena_of_pairwise {α : Type} (le : α → α → Bool) :
    ∀ (f : Nat) (l : List α), l.Pairwise (fun a b => le a b = true) → ordena le f l = l := by
  intro f
  induction f with
  | zero => intro l _; rfl
  | succ f ih =>
    intro l hl
    rw [ordena]
    split_ifs with h
    · rfl
    · have hsplit : l.take (metade l.length) ++ l.drop (metade l.length) = l :=
        List.take_append_drop _ _
      have hp : (l.take (metade l.length) ++ l.drop (metade l.length)).Pairwise
          (fun a b => le a b = true) := by rw [hsplit]; exact hl
      rw [List.pairwise_append] at hp
      rw [ih _ hp.1, ih _ hp.2.1, intercala_append le _ _ hp.2.2, hsplit]

theorem pairwise_of_chain {α : Type} (le : α → α → Bool) (S : α → Prop)
    (htr : ∀ a b c, S b → le a b = true → le b c = true → le a c = true) :
    ∀ (l : List α), (∀ z ∈ l, S z) → List.Chain' (fun a b => le a b = true) l →
      l.Pairwise (fun a b => le a b = true) := by
  intro l
  induction l with
  | nil => intro _ _; exact List.Pairwise.nil
  | cons x t ih =>
    intro hS hc
    have ht := ih (fun z hz => hS z (List.mem_cons_of_mem _ hz)) hc.tail
    rw [List.pairwise_cons]
    refine ⟨?_, ht⟩
    intro z hz
    cases t with
    | nil => simp at hz
    | cons y t =>
      rw [List.chain'_cons] at hc
      rcases List.mem_cons.mp hz with h | h
      · rw [h]; exact hc.1
      · exact htr x y z (hS y (by simp)) hc.1 ((List.pairwise_cons.mp ht).1 z h)

theorem filter_intercala {α : Type} (le : α → α → Bool) (S : α → Prop)
    (htot : ∀ a b, le a b = false → le b a = true)
    (htr : ∀ a b c, S b → le a b = true → le b c = true → le a c = true)
    (e : α) (hSe : S e) :
    ∀ (xs ys : List α), (∀ z ∈ xs, S z) →
      xs.Pairwise (fun a b => le a b = true) →
      (intercala le xs ys).filter (fun z => le e z && le z e)
        = xs.filter (fun z => le e z && le z e) ++ ys.filter (fun z => le e z && le z e) := by
  intro xs
  induction xs with
  | nil => intro ys _ _; simp [intercala]
  | cons x xs ihx =>
    intro ys
    induction ys with
    | nil => intro _ _; simp [intercala]
    | cons y ys ihy =>
      intro sx hx
      rw [intercala]
      split_ifs with hle
      · rw [List.filter_cons,
          ihx (y :: ys) (fun z hz => sx z (List.mem_cons_of_mem _ hz))
            (List.pairwise_cons.mp hx).2]
        simp only [List.filter_cons]
        split_ifs <;> simp
      · rw [List.filter_cons, ihy sx hx]
        by_cases hp : (le e y && le y e) = true
        · have hnone : (x :: xs).filter (fun z => le e z && le z e) = [] := by
            rw [List.filter_eq_nil_iff]
            intro z hz hpz
            simp only [Bool.and_eq_true] at hp hpz
            have hzy : le z y = true := htr z e y hSe hpz.2 hp.1
            have hxz : le x z = true := by
              rcases List.mem_cons.mp hz with h | h
              · rw [h]
                by_contra hc
                exact hc (htot x x (by simpa using hc))
              · exact (List.pairwise_cons.mp hx).1 z h
            exact hle (htr x z y (sx z hz) hxz hzy)
          rw [hnone]
          simp [List.filter_cons, hp]
        · simp [List.filter_cons, hp]

theorem filter_ordena {α : Type} (le : α → α → Bool) (S : α → Prop)
    (htot : ∀ a b, le a b = false → le b a = true)
    (htr : ∀ a b c, S b → le a b = true → le b c = true → le a c = true)
    (e : α) (hSe : S e) :
    ∀ (f : Nat) (l : List α), l.length ≤ f → (∀ z ∈ l, S z) →
      (ordena le f l).filter (fun z => le e z && le z e)
        = l.filter (fun z => le e z && le z e) := by
  intro f
  induction f with
  | zero => intro l _ _; rfl
  | succ f ih =>
    intro l hl hS
    rw [ordena]
    split_ifs with h
    · rfl
    · have := metade_lt l.length (by omega)
      have hp := metade_pos l.length
      have s1 : ∀ z ∈ l.take (metade l.length), S z :=
        fun z hz => hS z (List.mem_of_mem_take hz)
      have s2 : ∀ z ∈ l.drop (metade l.length), S z :=
        fun z hz => hS z (List.mem_of_mem_drop hz)
      have l1 : (l.take (metade l.length)).length ≤ f := by rw [List.length_take]; omega
      have l2 : (l.drop (metade l.length)).length ≤ f := by rw [List.length_drop]; omega
      rw [filter_intercala le S htot htr e hSe _ _
          (fun z hz => s1 z ((mem_ordena le f _ z).mp hz))
          (pairwise_ordena le S htot htr f _ l1 s1),
        ih _ l1 s1, ih _ l2 s2, ← List.filter_append, List.take_append_drop]

theorem intercala_map {α β : Type} (g : β → α) (le : α → α → Bool) :
    ∀ (xs ys : List β),
      (intercala (fun a b => le (g a) (g b)) xs ys).map g
        = intercala le (xs.map g) (ys.map g) := by
  intro xs
  induction xs with
  | nil => intro ys; simp [intercala]
  | cons x xs ihx =>
    intro ys
    induction ys with
    | nil => simp [intercala]
    | cons y ys ihy =>
      simp only [List.map_cons] at ihx ihy ⊢
      rw [intercala, intercala]
      split_ifs with hle
      · rw [List.map_cons, ihx (y :: ys)]; rfl
      · rw [List.map_cons, ihy]

theorem ordena_map {α β : Type} (g : β → α) (le : α → α → Bool) :
    ∀ (f : Nat) (l : List β),
      (ordena (fun a b => le (g a) (g b)) f l).map g = ordena le f (l.map g) := by
  intro f
  induction f with
  | zero => intro l; rfl
  | succ f ih =>
    intro l
    rw [ordena, ordena, List.length_map]
    split_ifs with h
    · rfl
    · rw [intercala_map, ih, ih, List.map_take, List.map_drop]

theorem sublist_pair_of_get {α : Type} :
    ∀ (l : List α) (i j : Nat) (x y : α), i < j → l[i]? = some x → l[j]? = some y →
      List.Sublist [x, y] l := by
  intro l
  induction l with
  | nil => intro i j x y _ hx _; simp at hx
  | cons h t ih =>
    intro i j x y hij hx hy
    obtain ⟨j, rfl⟩ : ∃ k, j = k + 1 := ⟨j - 1, by omega⟩
    rw [List.getElem?_cons_succ] at hy
    cases i with
    | zero =>
      simp at hx
      subst hx
      exact List.Sublist.cons₂ _ (List.singleton_sublist.mpr (List.mem_iff_getElem?.mpr ⟨j, hy⟩))
    | succ i =>
      rw [List.getElem?_cons_succ] at hx
      exact List.Sublist.cons _ (ih i j x y (by omega) hx hy)

theorem get_of_sublist_pair {α : Type} :
    ∀ (l : List α) (x y : α), List.Sublist [x, y] l →
      ∃ p q : Nat, p < q ∧ l[p]? = some x ∧ l[q]? = some y := by
  intro l
  induction l with
  | nil => intro x y h; simp at h
  | cons h t ih =>
    intro x y hs
    cases hs with
    | cons _ hs' =>
      obtain ⟨p, q, hpq, hp, hq⟩ := ih x y hs'
      exact ⟨p + 1, q + 1, by omega, by simpa using hp, by simpa using hq⟩
    | cons₂ _ hs' =>
      obtain ⟨n, hn⟩ := List.mem_iff_getElem?.mp (List.singleton_sublist.mp hs')
      exact ⟨0, n + 1, by omega, by simp, by simpa using hn⟩

/-- C2 (stability), as amended.  For every field key and every record array in
which no record has a NaN as its selected key, `mergeSort(arr, 0, n-1, campo)` is
stable: the result is the input rearranged by a permutation `σ` of the positions,
and for every two positions `i < j` whose records compare equal the record that was
at `i` comes before the record that was at `j`. -/
theorem mergeSort_stable (arr : List Registro) (campo : Int) (st : Estatisticas)
    (hnan : ∀ r ∈ arr, chave_sem_nan campo r = true) : estavel campo arr st := by
  obtain ⟨f, hf, h⟩ := mergeSort_spec campo arr st
  have htot : ∀ a b : Nat × Registro, nao_maior campo a.2 b.2 = false →
      nao_maior campo b.2 a.2 = true := fun a b => nao_maior_total campo a.2 b.2
  have htr : ∀ a b c : Nat × Registro, chave_sem_nan campo b.2 = true →
      nao_maior campo a.2 b.2 = true → nao_maior campo b.2 c.2 = true →
      nao_maior campo a.2 c.2 = true := fun a b c => nao_maior_trans campo a.2 b.2 c.2
  have hS : ∀ z ∈ arr.enum, chave_sem_nan campo z.2 = true := by
    intro z hz
    have := @List.mem_enum _ z.2 z.1 arr hz
    exact hnan z.2 (this.2 ▸ List.getElem_mem _)
  have hmap : (ordena (fun a b : Nat × Registro => nao_maior campo a.2 b.2) f arr.enum).map
      Prod.snd = ordena (nao_maior campo) f arr := by
    rw [ordena_map Prod.snd (nao_maior campo), List.enum_map_snd]
  refine ⟨_, _, (ordena (fun a b : Nat × Registro => nao_maior campo a.2 b.2) f
    arr.enum).map Prod.fst, h, ?_, ?_, ?_⟩
  · have := (perm_ordena (fun a b : Nat × Registro => nao_maior campo a.2 b.2) f
      arr.enum).map Prod.fst
    rwa [List.enum_map_fst] at this
  · intro p
    rw [← hmap, List.getElem?_map, List.getElem?_map]
    cases hT : (ordena (fun a b : Nat × Registro => nao_maior campo a.2 b.2) f arr.enum)[p]? with
    | none => rfl
    | some qr =>
      have hm : qr ∈ arr.enum :=
        (mem_ordena _ f _ qr).mp (List.mem_iff_getElem?.mpr ⟨p, hT⟩)
      have := @List.mem_enum _ qr.2 qr.1 arr hm
      simp only [Option.map_some', Option.some_bind]
      rw [List.getElem?_eq_getElem this.1, ← this.2]
  · intro i j a b hij ha hb hab
    have hab1 : nao_maior campo a b = true :=
      (nao_maior_iff campo a b st).mp (le_of_eq hab)
    have hba1 : nao_maior campo b a = true := by
      have := valor_comparacao_swap campo a b
      rw [← comparar_registros_fst a b campo st, hab] at this
      unfold nao_maior
      simp [this]
    have hea : arr.enum[i]? = some (i, a) := by rw [List.getElem?_enum, ha]; rfl
    have heb : arr.enum[j]? = some (j, b) := by rw [List.getElem?_enum, hb]; rfl
    have hsub := sublist_pair_of_get arr.enum i j (i, a) (j, b) hij hea heb
    have hSa : chave_sem_nan campo a = true :=
      hnan a (List.mem_iff_getElem?.mpr ⟨i, ha⟩)
    have hfil := filter_ordena (fun a b : Nat × Registro => nao_maior campo a.2 b.2)
      (fun z => chave_sem_nan campo z.2 = true) htot htr (i, a) hSa f arr.enum
      (by rw [List.enum_length]; exact hf) hS
    have h1 := hsub.filter
      (fun z : Nat × Registro => nao_maior campo a z.2 && nao_maior campo z.2 a)
    have h2 : List.filter
        (fun z : Nat × Registro => nao_maior campo a z.2 && nao_maior campo z.2 a)
        [(i, a), (j, b)] = [(i, a), (j, b)] := by
      simp [List.filter_cons, nao_maior_refl, hab1, hba1]
    rw [h2] at h1
    have h3 := (h1.trans (hfil ▸ List.filter_sublist _)).map Prod.fst
    exact get_of_sublist_pair _ i j h3

/-- C2 at a concrete input: latitudes 2.0, 1.0, 2.0, with a tie between the first
and the last record. -/
theorem mergeSort_stable_witness : estavel 3
    [reg_lat d2 65, reg_lat d1 66, reg_lat d2 67] stats_zero :=
  mergeSort_stable [reg_lat d2 65, reg_lat d1 66, reg_lat d2 67] 3 stats_zero (by decide)

/-- C2 as stated fails on latitudes 5.0, NaN, 1.0 sorted by latitude: the NaN
record (position 1) and the 1.0 record (position 2) compare equal, and the result
1.0, 5.0, NaN has them in the other order. -/
theorem mergeSort_unstable_nan : ¬ estavel 3 arr_nan stats_zero := by
  rintro ⟨out, st1, σ, hrun, hperm, hidx, hst⟩
  have hout : out = [reg_lat d1 67, reg_lat d5 65, reg_lat dNaN 66] := by
    have e : mergeSort arr_nan 0 ((arr_nan.length : Int) - 1) 3 stats_zero
        = some ([reg_lat d1 67, reg_lat d5 65, reg_lat dNaN 66], ⟨2, 10, ⟨0⟩⟩) := by decide
    rw [e] at hrun
    exact (congrArg Prod.fst (Option.some.inj hrun)).symm
  subst hout
  -- the record now at position 0 was at position 2
  have h0 : σ[0]? = some 2 := by
    have := hidx 0
    cases hq : σ[0]? with
    | none => rw [hq] at this; simp at this
    | some q =>
      rw [hq] at this
      match q, this with
      | 0, this => exact absurd this (by decide)
      | 1, this => exact absurd this (by decide)
      | 2, _ => rfl
      | q + 3, this => exact absurd this (by simp [arr_nan])
  obtain ⟨p, q, hpq, hp, hq⟩ := hst 1 2 (reg_lat dNaN 66) (reg_lat d1 67) (by decide)
    (by decide) (by decide) (by decide)
  have hnd : σ.Nodup := hperm.nodup_iff.mpr (List.nodup_range _)
  have hq0 : q = 0 := by
    have hql : q < σ.length := by
      by_contra hc
      rw [List.getElem?_eq_none (by omega)] at hq
      exact absurd hq (by simp)
    have h0l : 0 < σ.length := by omega
    have e1 : σ[q] = 2 := by
      rw [List.getElem?_eq_getElem hql] at hq
      exact Option.some.inj hq
    have e2 : σ[0] = 2 := by
      rw [List.getElem?_eq_getElem h0l] at h0
      exact Option.some.inj h0
    exact (List.Nodup.getElem_inj_iff hnd).mp (e1.trans e2.symm)
  omega

/-- C6 (idempotence), as amended.  For every field key and every record array in
which no record has a NaN as its selected key: if every adjacent pair of the array
is in order, `mergeSort(arr, 0, n-1, campo)` returns the array position by position
as it was; and sorting the result of one sort a second time returns that same
result. -/
theorem mergeSort_idempotent (arr : List Registro) (campo : Int) (st : Estatisticas)
    (hnan : ∀ r ∈ arr, chave_sem_nan campo r = true) :
    (ordenado campo arr st →
      ∃ st1, mergeSort arr 0 ((arr.length : Int) - 1) campo st = some (arr, st1)) ∧
    ∃ out st1 st2, mergeSort arr 0 ((arr.length : Int) - 1) campo st = some (out, st1) ∧
      mergeSort out 0 ((out.length : Int) - 1) campo st1 = some (out, st2) := by
  have htr : ∀ a b c : Registro, chave_sem_nan campo b = true →
      nao_maior campo a b = true → nao_maior campo b c = true →
      nao_maior campo a c = true := nao_maior_trans campo
  constructor
  · intro hs
    obtain ⟨f, hf, h⟩ := mergeSort_spec campo arr st
    have hc : List.Chain' (fun a b => nao_maior campo a b = true) arr :=
      chain'_of_get _ _ (fun i a b ha hb => (nao_maior_iff campo a b st).mp (hs i a b ha hb))
    have hp := pairwise_of_chain (nao_maior campo) (fun z => chave_sem_nan campo z = true)
      htr arr hnan hc
    rw [ordena_of_pairwise (nao_maior campo) f arr hp] at h
    exact ⟨_, h⟩
  · obtain ⟨f, hf, h⟩ := mergeSort_spec campo arr st
    have hp := pairwise_ordena (nao_maior campo) (fun z => chave_sem_nan campo z = true)
      (nao_maior_total campo) htr f arr hf hnan
    obtain ⟨g, hg, h2⟩ := mergeSort_spec campo (ordena (nao_maior campo) f arr)
      ⟨st.comparacoes + ordena_comps (nao_maior campo) f arr,
        st.movimentacoes + ordena_movs f arr.length, st.tempo_execucao⟩
    rw [ordena_of_pairwise (nao_maior campo) g _ hp] at h2
    exact ⟨_, _, _, h, h2⟩

/-- C6 at a concrete input: the ordered latitudes 1.0, 2.0, 2.0. -/
theorem mergeSort_idempotent_witness :
    (ordenado 3 [reg_lat d1 65, reg_lat d2 66, reg_lat d2 67] stats_zero →
      ∃ st1, mergeSort [reg_lat d1 65, reg_lat d2 66, reg_lat d2 67] 0
        (([reg_lat d1 65, reg_lat d2 66, reg_lat d2 67].length : Int) - 1) 3 stats_zero
        = some ([reg_lat d1 65, reg_lat d2 66, reg_lat d2 67], st1)) ∧
    ∃ out st1 st2, mergeSort [reg_lat d1 65, reg_lat d2 66, reg_lat d2 67] 0
        (([reg_lat d1 65, reg_lat d2 66, reg_lat d2 67].length : Int) - 1) 3 stats_zero
        = some (out, st1) ∧
      mergeSort out 0 ((out.length : Int) - 1) 3 st1 = some (out, st2) :=
  mergeSort_idempotent [reg_lat d1 65, reg_lat d2 66, reg_lat d2 67] 3 stats_zero
    (by decide)

/-- C6 as stated fails with a NaN key.  Latitudes 5.0, NaN, 1.0 have every adjacent
pair in order, yet sorting by latitude yields 1.0, 5.0, NaN; and for latitudes
2.0, 1.0, 1.0, 1.0, NaN, 1.0 a second sort changes the result of the first. -/
theorem mergeSort_not_idempotent_nan :
    (ordenado 3 arr_nan stats_zero ∧
      ∃ out st1, mergeSort arr_nan 0 ((arr_nan.length : Int) - 1) 3 stats_zero
          = some (out, st1) ∧ out ≠ arr_nan) ∧
    ∃ out st1 out2 st2,
      mergeSort arr_nan6 0 ((arr_nan6.length : Int) - 1) 3 stats_zero = some (out, st1) ∧
      mergeSort out 0 ((out.length : Int) - 1) 3 st1 = some (out2, st2) ∧ out2 ≠ out := by
  refine ⟨⟨?_, ?_⟩, ?_⟩
  · have hc : List.Chain' (fun a b => nao_maior 3 a b = true) arr_nan :=
      List.chain'_cons.mpr ⟨by decide, List.chain'_cons.mpr ⟨by decide,
        List.chain'_singleton _⟩⟩
    intro i a b ha hb
    exact (nao_maior_iff 3 a b stats_zero).mpr (chain'_get _ _ hc i a b ha hb)
  · exact ⟨[reg_lat d1 67, reg_lat d5 65, reg_lat dNaN 66], ⟨2, 10, ⟨0⟩⟩, by decide, by decide⟩
  · exact ⟨[reg_lat d1 66, reg_lat d1 67, reg_lat d1 68, reg_lat d2 65, reg_lat dNaN 69,
        reg_lat d1 70], ⟨10, 32, ⟨0⟩⟩,
      [reg_lat d1 66, reg_lat d1 67, reg_lat d1 68, reg_lat d1 70, reg_lat d2 65,
        reg_lat dNaN 69], ⟨18, 64, ⟨0⟩⟩, by decide, by decide, by decide⟩

/-! ## The movement count and the midpoint -/

theorem M_small (n : Nat) (h : n ≤ 1) : M n = 0 := by
  rw [M, if_pos h]

theorem M_step (n : Nat) (h : 2 ≤ n) : M n = M ((n + 1) / 2) + M (n / 2) + 2 * n := by
  rw [M, if_neg (by omega)]

theorem metade_eq (n : Nat) (h : 2 ≤ n) : metade n = (n + 1) / 2 := by
  unfold metade; omega

theorem ordena_movs_eq_M : ∀ (f n : Nat), n ≤ f → ordena_movs f n = M n := by
  intro f
  induction f with
  | zero => intro n hn; rw [ordena_movs, M_small n (by omega)]
  | succ f ih =>
    intro n hn
    rw [ordena_movs]
    split_ifs with h
    · rw [M_small n (by omega)]
    · have h2 : 2 ≤ n := by omega
      have hm := metade_eq n h2
      rw [M_step n h2, ih _ (by rw [hm]; omega), ih _ (by rw [hm]; omega), hm]
      have : n - (n + 1) / 2 = n / 2 := by omega
      rw [this]

theorem ponto_medio_eq (left right : Int) (h : left ≤ right) :
    ponto_medio left right = left + (right - left) / 2 := by
  rw [ponto_medio, Int.tdiv_eq_ediv (by omega) (by omega)]
/-- C17 (overflow-free midpoint).  For all indices `0 <= left < right <= 2^31 - 1`
every intermediate value of `middle = left + (right - left) / 2` (the difference,
the quotient and the sum) fits a signed 32-bit `int`, and `middle` is
`floor((left + right) / 2)` computed in unbounded integers; for some such `left`,
`right` the sum `left + right` does not fit. -/
theorem ponto_medio_sem_overflow (left right : Int) (h0 : 0 ≤ left) (h1 : left < right)
    (h2 : right ≤ INT_MAX) :
    cabe_em_int (right - left) ∧ cabe_em_int ((right - left).tdiv 2) ∧
    cabe_em_int (ponto_medio left right) ∧
    ponto_medio left right = (left + right) / 2 ∧
    ∃ l r : Int, 0 ≤ l ∧ l < r ∧ r ≤ INT_MAX ∧ ¬ cabe_em_int (l + r) := by
  have hq : (right - left).tdiv 2 = (right - left) / 2 :=
    Int.tdiv_eq_ediv (by omega) (by omega)
  have hm := ponto_medio_eq left right (by omega)
  unfold cabe_em_int INT_MAX INT_MIN at *
  rw [hm, hq]
  refine ⟨by omega, by omega, by omega, by omega, 2 ^ 30, 2 ^ 30 + 1, ?_⟩
  norm_num

/-- C17 at a concrete input: `left = 2^30`, `right = 2^31 - 1`. -/
theorem ponto_medio_sem_overflow_witness :
    cabe_em_int (2147483647 - 1073741824) ∧
    cabe_em_int ((2147483647 - 1073741824 : Int).tdiv 2) ∧
    cabe_em_int (ponto_medio 1073741824 2147483647) ∧
    ponto_medio 1073741824 2147483647 = (1073741824 + 2147483647) / 2 ∧
    ∃ l r : Int, 0 ≤ l ∧ l < r ∧ r ≤ INT_MAX ∧ ¬ cabe_em_int (l + r) :=
  ponto_medio_sem_overflow 1073741824 2147483647 (by decide) (by decide) (by decide)

theorem mergeSort_fuel_succ (f : Nat) (arr : List Registro) (left right campo : Int)
    (st : Estatisticas) :
    mergeSort_fuel (f + 1) arr left right campo st
      = if left < right then
          match mergeSort_fuel f arr left (ponto_medio left right) campo st with
          | none => none
          | some (arr1, stats1) =>
            match mergeSort_fuel f arr1 (ponto_medio left right + 1) right campo stats1 with
            | none => none
            | some (arr2, stats2) => merge arr2 left (ponto_medio left right) right campo stats2
        else some (arr, st) := rfl

theorem valor_comparacao_fora (campo : Int) (h : campo < 1 ∨ 9 < campo) (a b : Registro) :
    valor_comparacao campo a b = 0 := by
  unfold valor_comparacao comparar_registros
  have c1 : campo ≠ 1 := by omega
  have c2 : campo ≠ 2 := by omega
  have c3 : campo ≠ 3 := by omega
  have c4 : campo ≠ 4 := by omega
  have c5 : campo ≠ 5 := by omega
  have c6 : campo ≠ 6 := by omega
  have c7 : campo ≠ 7 := by omega
  have c8 : campo ≠ 8 := by omega
  have c9 : campo ≠ 9 := by omega
  simp only [c1, c2, c3, c4, c5, c6, c7, c8, c9, if_false]

/-- C20 (unrecognised field key).  For every integer `campo` outside 1..9,
`comparar_registros` returns 0 for every pair of records, and
`mergeSort(arr, 0, n-1, campo)` returns the array exactly as it was given, while the
movement counter still grows by `M(n)` and the comparison counter by at least
`n - 1`, as in any other sort of `n` records. -/
theorem campo_desconhecido (campo : Int) (h : campo < 1 ∨ 9 < campo) :
    (∀ (a b : Registro) (st : Estatisticas), (comparar_registros a b campo st).1 = 0) ∧
    ∀ (arr : List Registro) (st : Estatisticas),
      ∃ st1, mergeSort arr 0 ((arr.length : Int) - 1) campo st = some (arr, st1) ∧
        st1.movimentacoes = st.movimentacoes + (M arr.length : Int) ∧
        st.comparacoes + ((arr.length : Int) - 1) ≤ st1.comparacoes := by
  have hv : ∀ a b : Registro, nao_maior campo a b = true := by
    intro a b
    unfold nao_maior
    rw [valor_comparacao_fora campo h a b]
    decide
  refine ⟨fun a b st => ?_, fun arr st => ?_⟩
  · rw [comparar_registros_fst, valor_comparacao_fora campo h a b]
  · obtain ⟨f, hf, hrun⟩ := mergeSort_spec campo arr st
    have hp : arr.Pairwise (fun a b => nao_maior campo a b = true) :=
      List.pairwise_of_forall (fun a b => hv a b)
    rw [ordena_of_pairwise (nao_maior campo) f arr hp] at hrun
    refine ⟨_, hrun, ?_, ?_⟩
    · show st.movimentacoes + (ordena_movs f arr.length : Int) = _
      rw [ordena_movs_eq_M f arr.length hf]
    · have := le_ordena_comps (nao_maior campo) f arr hf
      show st.comparacoes + ((arr.length : Int) - 1)
        ≤ st.comparacoes + (ordena_comps (nao_maior campo) f arr : Int)
      omega

/-- C20 at a concrete input: key 0 and key 10 on the records with latitudes 3.0,
1.0, 2.0. -/
theorem campo_desconhecido_witness :
    (∃ st1, mergeSort [reg_lat d3 65, reg_lat d1 66, reg_lat d2 67] 0
        (([reg_lat d3 65, reg_lat d1 66, reg_lat d2 67].length : Int) - 1) 0 stats_zero
        = some ([reg_lat d3 65, reg_lat d1 66, reg_lat d2 67], st1) ∧
      st1.movimentacoes = stats_zero.movimentacoes
        + (M [reg_lat d3 65, reg_lat d1 66, reg_lat d2 67].length : Int) ∧
      stats_zero.comparacoes
        + (([reg_lat d3 65, reg_lat d1 66, reg_lat d2 67].length : Int) - 1)
        ≤ st1.comparacoes) ∧
    (∀ (a b : Registro) (st : Estatisticas), (comparar_registros a b 10 st).1 = 0) :=
  ⟨(campo_desconhecido 0 (by decide)).2 [reg_lat d3 65, reg_lat d1 66, reg_lat d2 67]
      stats_zero,
   (campo_desconhecido 10 (by decide)).1⟩

/-! ## Frame of the sorted range -/

theorem moldura {α : Type} (pre l l2 post : List α) (hp : l2.Perm l) :
    (pre ++ l2 ++ post).length = (pre ++ l ++ post).length ∧
    (∀ i : Nat, (i < pre.length ∨ pre.length + l.length ≤ i) →
      (pre ++ l2 ++ post)[i]? = (pre ++ l ++ post)[i]?) ∧
    (((pre ++ l2 ++ post).drop pre.length).take l.length).Perm
      (((pre ++ l ++ post).drop pre.length).take l.length) := by
  have hlen : l2.length = l.length := hp.length_eq
  refine ⟨by simp [hlen], ?_, ?_⟩
  · intro i hi
    rcases hi with hi | hi
    · rw [List.append_assoc, List.append_assoc, List.getElem?_append_left hi,
        List.getElem?_append_left hi]
    · rw [List.getElem?_append_right (by rw [List.length_append]; omega),
        List.getElem?_append_right (by rw [List.length_append]; omega)]
      simp [hlen]
  · rw [List.append_assoc, List.append_assoc, List.drop_left, List.drop_left,
      List.take_left, ← hlen, List.take_left]
    exact hp

theorem mergeSort_range_spec (arr : List Registro) (left right campo : Int)
    (st : Estatisticas) (h0 : 0 ≤ left) (h1 : left ≤ right)
    (h3 : right < (arr.length : Int)) :
    ∃ (pre l post : List Registro) (f : Nat), arr = pre ++ l ++ post ∧
      left = (pre.length : Int) ∧ right = (pre.length : Int) + (l.length : Int) - 1 ∧
      l.length ≤ f ∧
      mergeSort arr left right campo st
        = some (pre ++ ordena (nao_maior campo) f l ++ post,
            ⟨st.comparacoes + ordena_comps (nao_maior campo) f l,
              st.movimentacoes + ordena_movs f l.length, st.tempo_execucao⟩) := by
  obtain ⟨pre, xs, ys, post, rfl, hl, hm, hr⟩ :=
    decompor arr left right right h0 (by omega) (by omega) h3
  have hys : ys = [] := List.length_eq_zero.mp (by omega)
  subst hys
  refine ⟨pre, xs, post, (right - left).toNat + 1, by simp, hl, hm, by omega, ?_⟩
  have h := mergeSort_fuel_spec campo ((right - left).toNat + 1) pre xs post left right st
    hl hm (by omega) (by omega)
  simpa [mergeSort] using h

/-- C18 (frame).  For every array and indices `0 <= left <= right < len`,
`mergeSort(arr, left, right, campo)` returns, keeps the length of the array, leaves
every element at a position outside `[left, right]` as it was, and leaves inside the
range a permutation of what the range held; the same holds for
`merge(arr, left, middle, right, campo)` whenever `left <= middle < right`. -/
theorem mergeSort_moldura (arr : List Registro) (left right campo : Int)
    (st : Estatisticas) (h0 : 0 ≤ left) (h1 : left ≤ right)
    (h3 : right < (arr.length : Int)) :
    (∃ out st1, mergeSort arr left right campo st = some (out, st1) ∧
      out.length = arr.length ∧
      (∀ i : Nat, ((i : Int) < left ∨ right < (i : Int)) → out[i]? = arr[i]?) ∧
      ((out.drop left.toNat).take (right - left + 1).toNat).Perm
        ((arr.drop left.toNat).take (right - left + 1).toNat)) ∧
    ∀ middle : Int, left ≤ middle → middle < right →
      ∃ out st1, merge arr left middle right campo st = some (out, st1) ∧
        out.length = arr.length ∧
        (∀ i : Nat, ((i : Int) < left ∨ right < (i : Int)) → out[i]? = arr[i]?) ∧
        ((out.drop left.toNat).take (right - left + 1).toNat).Perm
          ((arr.drop left.toNat).take (right - left + 1).toNat) := by
  constructor
  · obtain ⟨pre, l, post, f, rfl, hl, hr, _, hrun⟩ :=
      mergeSort_range_spec arr left right campo st h0 h1 h3
    obtain ⟨m1, m2, m3⟩ := moldura pre l (ordena (nao_maior campo) f l) post
      (perm_ordena _ f l)
    have e1 : left.toNat = pre.length := by omega
    have e2 : (right - left + 1).toNat = l.length := by omega
    refine ⟨_, _, hrun, m1, fun i hi => m2 i (by omega), ?_⟩
    rw [e1, e2]
    exact m3
  · intro middle hm1 hm2
    obtain ⟨pre, xs, ys, post, rfl, hl, hm, hr⟩ :=
      decompor arr left middle right h0 (by omega) (by omega) h3
    have hrun := merge_spec campo pre xs ys post left middle right st hl hm hr
    obtain ⟨m1, m2, m3⟩ := moldura pre (xs ++ ys) (intercala (nao_maior campo) xs ys) post
      (perm_intercala _ xs ys)
    have e1 : left.toNat = pre.length := by omega
    have e2 : (right - left + 1).toNat = (xs ++ ys).length := by
      rw [List.length_append]; omega
    simp only [List.append_assoc] at m1 m2 m3 hrun ⊢
    refine ⟨_, _, hrun, m1, fun i hi => m2 i (by rw [List.length_append]; omega), ?_⟩
    rw [e1, e2]
    exact m3

/-- C18 at a concrete input: sorting positions 1..3 of a five-record array. -/
theorem mergeSort_moldura_witness :
    (∃ out st1,
      mergeSort [reg_lat d5 65, reg_lat d3 66, reg_lat d4 67, reg_lat d1 68, reg_lat d2 69]
        1 3 3 stats_zero = some (out, st1) ∧
      out.length
        = [reg_lat d5 65, reg_lat d3 66, reg_lat d4 67, reg_lat d1 68, reg_lat d2 69].length ∧
      (∀ i : Nat, ((i : Int) < 1 ∨ 3 < (i : Int)) → out[i]?
        = [reg_lat d5 65, reg_lat d3 66, reg_lat d4 67, reg_lat d1 68, reg_lat d2 69][i]?) ∧
      ((out.drop (1 : Int).toNat).take ((3 : Int) - 1 + 1).toNat).Perm
        (([reg_lat d5 65, reg_lat d3 66, reg_lat d4 67, reg_lat d1 68,
          reg_lat d2 69].drop (1 : Int).toNat).take ((3 : Int) - 1 + 1).toNat)) ∧
    ∀ middle : Int, 1 ≤ middle → middle < 3 →
      ∃ out st1,
        merge [reg_lat d5 65, reg_lat d3 66, reg_lat d4 67, reg_lat d1 68, reg_lat d2 69]
          1 middle 3 3 stats_zero = some (out, st1) ∧
        out.length
          = [reg_lat d5 65, reg_lat d3 66, reg_lat d4 67, reg_lat d1 68,
            reg_lat d2 69].length ∧
        (∀ i : Nat, ((i : Int) < 1 ∨ 3 < (i : Int)) → out[i]?
          = [reg_lat d5 65, reg_lat d3 66, reg_lat d4 67, reg_lat d1 68, reg_lat d2 69][i]?) ∧
        ((out.drop (1 : Int).toNat).take ((3 : Int) - 1 + 1).toNat).Perm
          (([reg_lat d5 65, reg_lat d3 66, reg_lat d4 67, reg_lat d1 68,
            reg_lat d2 69].drop (1 : Int).toNat).take ((3 : Int) - 1 + 1).toNat) :=
  mergeSort_moldura [reg_lat d5 65, reg_lat d3 66, reg_lat d4 67, reg_lat d1 68, reg_lat d2 69]
    1 3 3 stats_zero (by decide) (by decide) (by decide)

/-! ## Upper bounds on the counters -/

theorem intercala_comps_le {α : Type} (le : α → α → Bool) :
    ∀ xs ys : List α, intercala_comps le xs ys ≤ xs.length + ys.length - 1 := by
  intro xs
  induction xs with
  | nil => intro ys; simp [intercala_comps]
  | cons x xs ihx =>
    intro ys
    induction ys with
    | nil => simp [intercala_comps]
    | cons y ys ihy =>
      rw [intercala_comps]
      have h1 := ihx (y :: ys)
      simp only [List.length_cons] at h1 ihy ⊢
      split_ifs <;> omega

theorem clog_metade (n : Nat) (h : 2 ≤ n) :
    Nat.clog 2 n = Nat.clog 2 ((n + 1) / 2) + 1 := by
  have := Nat.clog_of_two_le (b := 2) (n := n) (by omega) h
  simpa using this

theorem ordena_comps_le {α : Type} (le : α → α → Bool) :
    ∀ (f : Nat) (l : List α), l.length ≤ f →
      ordena_comps le f l ≤ l.length * Nat.clog 2 l.length := by
  intro f
  induction f with
  | zero => intro l _; simp [ordena_comps]
  | succ f ih =>
    intro l hl
    rw [ordena_comps]
    split_ifs with h
    · exact Nat.zero_le _
    · have h2 : 2 ≤ l.length := by omega
      have hm := metade_eq l.length h2
      have e1 : (l.take (metade l.length)).length = (l.length + 1) / 2 := by
        rw [List.length_take, hm]; omega
      have e2 : (l.drop (metade l.length)).length = l.length / 2 := by
        rw [List.length_drop, hm]; omega
      have b1 := ih (l.take (metade l.length)) (by omega)
      have b2 := ih (l.drop (metade l.length)) (by omega)
      have b3 := intercala_comps_le le (ordena le f (l.take (metade l.length)))
        (ordena le f (l.drop (metade l.length)))
      rw [length_ordena, length_ordena, e1, e2] at b3
      rw [e1] at b1
      rw [e2] at b2
      have hc := clog_metade l.length h2
      have hmono : Nat.clog 2 (l.length / 2) ≤ Nat.clog 2 ((l.length + 1) / 2) :=
        Nat.clog_mono_right 2 (by omega)
      have b2' : l.length / 2 * Nat.clog 2 (l.length / 2)
          ≤ l.length / 2 * Nat.clog 2 ((l.length + 1) / 2) := Nat.mul_le_mul_left _ hmono
      have hsplit : (l.length + 1) / 2 + l.length / 2 = l.length := by omega
      have hsum : (l.length + 1) / 2 * Nat.clog 2 ((l.length + 1) / 2)
          + l.length / 2 * Nat.clog 2 ((l.length + 1) / 2)
          = l.length * Nat.clog 2 ((l.length + 1) / 2) := by
        rw [← Nat.add_mul, hsplit]
      rw [hc, Nat.mul_add, Nat.mul_one]
      omega

theorem ordena_movs_le : ∀ (f n : Nat), n ≤ f → ordena_movs f n ≤ 2 * n * Nat.clog 2 n := by
  intro f
  induction f with
  | zero => intro n _; simp [ordena_movs]
  | succ f ih =>
    intro n hn
    rw [ordena_movs]
    split_ifs with h
    · exact Nat.zero_le _
    · have h2 : 2 ≤ n := by omega
      have hm := metade_eq n h2
      have e2 : n - metade n = n / 2 := by rw [hm]; omega
      have b1 := ih (metade n) (by rw [hm]; omega)
      have b2 := ih (n - metade n) (by rw [e2]; omega)
      rw [hm] at b1
      rw [e2] at b2
      rw [e2, hm]
      have hc := clog_metade n h2
      have hmono : Nat.clog 2 (n / 2) ≤ Nat.clog 2 ((n + 1) / 2) :=
        Nat.clog_mono_right 2 (by omega)
      have b2' : 2 * (n / 2) * Nat.clog 2 (n / 2)
          ≤ 2 * (n / 2) * Nat.clog 2 ((n + 1) / 2) := Nat.mul_le_mul_left _ hmono
      have hsplit : 2 * ((n + 1) / 2) + 2 * (n / 2) = 2 * n := by omega
      have hsum : 2 * ((n + 1) / 2) * Nat.clog 2 ((n + 1) / 2)
          + 2 * (n / 2) * Nat.clog 2 ((n + 1) / 2)
          = 2 * n * Nat.clog 2 ((n + 1) / 2) := by
        rw [← Nat.add_mul, hsplit]
      rw [hc, Nat.mul_add, Nat.mul_one]
      omega

/-- C16 (n log n bounds).  For every array of `n >= 1` records and every field key,
`mergeSort(arr, 0, n-1, campo)` returns and adds at most `n * ceil(log2 n)` to the
comparison counter and at most `2 * n * ceil(log2 n)` to the movement counter; and
one `merge` of a range of `s = right - left + 1` records adds at most `s - 1`
comparisons. -/
theorem mergeSort_limites (arr : List Registro) (campo : Int) (st : Estatisticas)
    (hn : 1 ≤ arr.length) :
    (∃ out st1, mergeSort arr 0 ((arr.length : Int) - 1) campo st = some (out, st1) ∧
      st1.comparacoes ≤ st.comparacoes + ((arr.length * Nat.clog 2 arr.length : Nat) : Int) ∧
      st1.movimentacoes
        ≤ st.movimentacoes + ((2 * arr.length * Nat.clog 2 arr.length : Nat) : Int)) ∧
    ∀ left middle right : Int, 0 ≤ left → left ≤ middle → middle < right →
      right < (arr.length : Int) →
      ∃ out st1, merge arr left middle right campo st = some (out, st1) ∧
        st1.comparacoes ≤ st.comparacoes + ((right - left + 1) - 1) := by
  constructor
  · obtain ⟨f, hf, hrun⟩ := mergeSort_spec campo arr st
    refine ⟨_, _, hrun, ?_, ?_⟩
    · have := ordena_comps_le (nao_maior campo) f arr hf
      show st.comparacoes + (ordena_comps (nao_maior campo) f arr : Int) ≤ _
      omega
    · have := ordena_movs_le f arr.length hf
      show st.movimentacoes + (ordena_movs f arr.length : Int) ≤ _
      omega
  · intro left middle right h0 h1 h2 h3
    obtain ⟨pre, xs, ys, post, rfl, hl, hm, hr⟩ :=
      decompor arr left middle right h0 (by omega) (by omega) h3
    refine ⟨_, _, merge_spec campo pre xs ys post left middle right st hl hm hr, ?_⟩
    have := intercala_comps_le (nao_maior campo) xs ys
    show st.comparacoes + (intercala_comps (nao_maior campo) xs ys : Int) ≤ _
    omega

/-- C16 at a concrete input: the three records with latitudes 3.0, 1.0, 2.0. -/
theorem mergeSort_limites_witness :
    (∃ out st1, mergeSort [reg_lat d3 65, reg_lat d1 66, reg_lat d2 67] 0
        (([reg_lat d3 65, reg_lat d1 66, reg_lat d2 67].length : Int) - 1) 3 stats_zero
        = some (out, st1) ∧
      st1.comparacoes ≤ stats_zero.comparacoes
        + (([reg_lat d3 65, reg_lat d1 66, reg_lat d2 67].length
            * Nat.clog 2 [reg_lat d3 65, reg_lat d1 66, reg_lat d2 67].length : Nat) : Int) ∧
      st1.movimentacoes ≤ stats_zero.movimentacoes
        + ((2 * [reg_lat d3 65, reg_lat d1 66, reg_lat d2 67].length
            * Nat.clog 2 [reg_lat d3 65, reg_lat d1 66, reg_lat d2 67].length : Nat) : Int)) ∧
    ∀ left middle right : Int, 0 ≤ left → left ≤ middle → middle < right →
      right < ([reg_lat d3 65, reg_lat d1 66, reg_lat d2 67].length : Int) →
      ∃ out st1, merge [reg_lat d3 65, reg_lat d1 66, reg_lat d2 67] left middle right 3
          stats_zero = some (out, st1) ∧
        st1.comparacoes ≤ stats_zero.comparacoes + ((right - left + 1) - 1) :=
  mergeSort_limites [reg_lat d3 65, reg_lat d1 66, reg_lat d2 67] 3 stats_zero (by decide)

/-- C15 (no variance), as amended.  For a fixed field key, any two arrays of the
same length make `mergeSort(arr, 0, n-1, campo)` add the same amount to the movement
counter, whatever the initial order of their records.  (The comparison counter is
left out: its increase depends on the order.) -/
theorem mesmas_movimentacoes (arr1 arr2 : List Registro) (campo : Int)
    (st : Estatisticas) (h : arr1.length = arr2.length) :
    ∃ out1 s1 out2 s2,
      mergeSort arr1 0 ((arr1.length : Int) - 1) campo st = some (out1, s1) ∧
      mergeSort arr2 0 ((arr2.length : Int) - 1) campo st = some (out2, s2) ∧
      s1.movimentacoes = s2.movimentacoes := by
  obtain ⟨f1, hf1, h1⟩ := mergeSort_spec campo arr1 st
  obtain ⟨f2, hf2, h2⟩ := mergeSort_spec campo arr2 st
  refine ⟨_, _, _, _, h1, h2, ?_⟩
  show st.movimentacoes + (ordena_movs f1 arr1.length : Int)
    = st.movimentacoes + (ordena_movs f2 arr2.length : Int)
  rw [ordena_movs_eq_M f1 _ hf1, ordena_movs_eq_M f2 _ hf2, h]

/-- C15 at a concrete input: latitudes 1.0, 2.0, 3.0 and 2.0, 3.0, 1.0. -/
theorem mesmas_movimentacoes_witness :
    ∃ out1 s1 out2 s2,
      mergeSort [reg_lat d1 65, reg_lat d2 66, reg_lat d3 67] 0
        (([reg_lat d1 65, reg_lat d2 66, reg_lat d3 67].length : Int) - 1) 3 stats_zero
        = some (out1, s1) ∧
      mergeSort [reg_lat d2 66, reg_lat d3 67, reg_lat d1 65] 0
        (([reg_lat d2 66, reg_lat d3 67, reg_lat d1 65].length : Int) - 1) 3 stats_zero
        = some (out2, s2) ∧
      s1.movimentacoes = s2.movimentacoes :=
  mesmas_movimentacoes [reg_lat d1 65, reg_lat d2 66, reg_lat d3 67]
    [reg_lat d2 66, reg_lat d3 67, reg_lat d1 65] 3 stats_zero (by decide)

/-- C15 as stated fails for the comparisons: the same three records in the orders
1.0, 2.0, 3.0 and 2.0, 3.0, 1.0, sorted by latitude from zeroed counters, cost 3 and
2 comparisons (and 10 movements each). -/
theorem mergeSort_comparacoes_variam :
    mergeSort [reg_lat d1 65, reg_lat d2 66, reg_lat d3 67] 0 2 3 stats_zero
      = some ([reg_lat d1 65, reg_lat d2 66, reg_lat d3 67], ⟨3, 10, ⟨0⟩⟩) ∧
    mergeSort [reg_lat d2 66, reg_lat d3 67, reg_lat d1 65] 0 2 3 stats_zero
      = some ([reg_lat d1 65, reg_lat d2 66, reg_lat d3 67], ⟨2, 10, ⟨0⟩⟩) ∧
    [reg_lat d1 65, reg_lat d2 66, reg_lat d3 67].length
      = [reg_lat d2 66, reg_lat d3 67, reg_lat d1 65].length ∧
    (3 : Int) ≠ 2 := by
  decide

/-! ## What the comparator computes -/

theorem strcmp_eq_zero_iff : ∀ s t : CString, strcmp s t = 0 ↔ s = t := by
  intro s
  induction s with
  | nil => intro t; cases t <;> simp [strcmp]
  | cons a s ih =>
    intro t
    cases t with
    | nil => simp [strcmp]
    | cons b t =>
      simp only [strcmp]
      by_cases h1 : a < b
      · have : a ≠ b := by omega
        simp [h1, this]
      · by_cases h2 : b < a
        · have : a ≠ b := by omega
          simp [h1, h2, this]
        · have : a = b := by omega
          simp [h1, h2, this, ih t]

theorem strcmp_neg_iff : ∀ s t : CString, strcmp s t < 0 ↔ List.Lex (· < ·) s t := by
  intro s
  induction s with
  | nil =>
    intro t
    cases t with
    | nil => simp [strcmp]
    | cons b t => simp [strcmp, List.Lex.nil]
  | cons a s ih =>
    intro t
    cases t with
    | nil =>
      simp only [strcmp]
      constructor
      · intro h; omega
      · intro h; cases h
    | cons b t =>
      simp only [strcmp]
      by_cases h1 : a < b
      · simp only [h1, if_true]
        exact ⟨fun _ => List.Lex.rel h1, fun _ => by omega⟩
      · by_cases h2 : b < a
        · simp only [h1, h2, if_true, if_false]
          constructor
          · intro h; omega
          · intro h
            cases h with
            | cons h' => omega
            | rel h' => omega
        · have e : a = b := by omega
          subst e
          simp only [h1, if_false]
          rw [ih t]
          constructor
          · intro h; exact List.Lex.cons h
          · intro h
            cases h with
            | cons h' => exact h'
            | rel h' => omega

theorem strcmp_pos_iff (s t : CString) : 0 < strcmp s t ↔ List.Lex (· < ·) t s := by
  rw [← strcmp_neg_iff t s, strcmp_swap s t]
  omega

theorem valor_comparacao_texto (campo : Int) (a b : Registro)
    (h1 : 1 ≤ campo) (h9 : campo ≤ 9) (h3 : campo ≠ 3) (h4 : campo ≠ 4) :
    valor_comparacao campo a b = strcmp (chave_texto campo a) (chave_texto campo b) := by
  have hc : campo = 1 ∨ campo = 2 ∨ campo = 5 ∨ campo = 6 ∨ campo = 7 ∨ campo = 8
      ∨ campo = 9 := by omega
  rcases hc with h | h | h | h | h | h | h <;> subst h <;> rfl

theorem valor_comparacao_num (campo : Int) (a b : Registro) (h : campo = 3 ∨ campo = 4) :
    valor_comparacao campo a b
      = if Double.lt (chave_num campo a) (chave_num campo b) then -1
        else if Double.gt (chave_num campo a) (chave_num campo b) then 1 else 0 := by
  unfold valor_comparacao comparar_registros chave_num
  rcases h with h | h <;> subst h <;> simp

theorem double_sinal (x y : Double) :
    ((if Double.lt x y then (-1 : Int) else if Double.gt x y then 1 else 0) < 0
      ↔ Double.lt x y = true) ∧
    (0 < (if Double.lt x y then (-1 : Int) else if Double.gt x y then 1 else 0)
      ↔ Double.gt x y = true) ∧
    ((if Double.lt x y then (-1 : Int) else if Double.gt x y then 1 else 0) = 0
      ↔ (Double.lt x y = false ∧ Double.gt x y = false)) := by
  have hex : ¬ (Double.lt x y = true ∧ Double.gt x y = true) := by
    simp only [Double.lt, Double.gt, Bool.and_eq_true, decide_eq_true_eq]
    omega
  cases h1 : Double.lt x y <;> cases h2 : Double.gt x y <;> simp_all

theorem double_zero_sem_nan (x y : Double) (hx : x.isNaN = false) (hy : y.isNaN = false) :
    (Double.lt x y = false ∧ Double.gt x y = false) ↔ Double.eq x y = true := by
  simp only [Double.lt, Double.gt, Double.eq, hx, hy, Bool.not_false, Bool.true_and,
    decide_eq_true_eq, decide_eq_false_iff_not]
  omega

theorem double_nan_zero (x y : Double) (h : x.isNaN = true ∨ y.isNaN = true) :
    Double.lt x y = false ∧ Double.gt x y = false := by
  rcases h with h | h <;> simp [Double.lt, Double.gt, h]

/-- C11 (comparator ordering), as amended.  For every pair of records and every key
`campo` in 1..9 the result of `comparar_registros` depends on the selected field of
the two records only.  For the seven string keys it is negative, zero or positive
exactly when the field of `a` is below, equal to or above the field of `b` in the
byte-wise lexicographic order.  For `lat` (3) and `lon` (4) it is negative exactly
when `a < b`, positive exactly when `a > b` and zero exactly when neither holds;
when neither value is a NaN, zero means `a == b`, and when one of them is a NaN the
result is zero. -/
theorem comparar_registros_ordem (a b : Registro) (campo : Int) (st : Estatisticas)
    (h1 : 1 ≤ campo) (h9 : campo ≤ 9) :
    (campo ≠ 3 → campo ≠ 4 →
      ((comparar_registros a b campo st).1 < 0
        ↔ List.Lex (· < ·) (chave_texto campo a) (chave_texto campo b)) ∧
      ((comparar_registros a b campo st).1 = 0
        ↔ chave_texto campo a = chave_texto campo b) ∧
      (0 < (comparar_registros a b campo st).1
        ↔ List.Lex (· < ·) (chave_texto campo b) (chave_texto campo a)) ∧
      ∀ a2 b2 : Registro, chave_texto campo a2 = chave_texto campo a →
        chave_texto campo b2 = chave_texto campo b →
        (comparar_registros a2 b2 campo st).1 = (comparar_registros a b campo st).1) ∧
    (campo = 3 ∨ campo = 4 →
      ((comparar_registros a b campo st).1 < 0
        ↔ Double.lt (chave_num campo a) (chave_num campo b) = true) ∧
      (0 < (comparar_registros a b campo st).1
        ↔ Double.gt (chave_num campo a) (chave_num campo b) = true) ∧
      ((comparar_registros a b campo st).1 = 0
        ↔ (Double.lt (chave_num campo a) (chave_num campo b) = false ∧
            Double.gt (chave_num campo a) (chave_num campo b) = false)) ∧
      ((chave_num campo a).isNaN = false → (chave_num campo b).isNaN = false →
        ((comparar_registros a b campo st).1 = 0
          ↔ Double.eq (chave_num campo a) (chave_num campo b) = true)) ∧
      ((chave_num campo a).isNaN = true ∨ (chave_num campo b).isNaN = true →
        (comparar_registros a b campo st).1 = 0) ∧
      ∀ a2 b2 : Registro, chave_num campo a2 = chave_num campo a →
        chave_num campo b2 = chave_num campo b →
        (comparar_registros a2 b2 campo st).1 = (comparar_registros a b campo st).1) := by
  constructor
  · intro h3 h4
    have hv := valor_comparacao_texto campo a b h1 h9 h3 h4
    rw [comparar_registros_fst, hv]
    refine ⟨strcmp_neg_iff _ _, strcmp_eq_zero_iff _ _, strcmp_pos_iff _ _, ?_⟩
    intro a2 b2 ha hb
    rw [comparar_registros_fst, valor_comparacao_texto campo a2 b2 h1 h9 h3 h4, ha, hb]
  · intro h
    have hv := valor_comparacao_num campo a b h
    have hs := double_sinal (chave_num campo a) (chave_num campo b)
    rw [comparar_registros_fst, hv]
    refine ⟨hs.1, hs.2.1, hs.2.2, ?_, ?_, ?_⟩
    · intro hx hy
      rw [hs.2.2]
      exact double_zero_sem_nan _ _ hx hy
    · intro hn
      exact hs.2.2.mpr (double_nan_zero _ _ hn)
    · intro a2 b2 ha hb
      rw [comparar_registros_fst, valor_comparacao_num campo a2 b2 h, ha, hb]

/-- C11 at a concrete input: key 3 (`lat`) on the records with latitudes 1.0 and 2.0,
whose text fields are `"A"` and `"B"`. -/
theorem comparar_registros_ordem_witness :
    ((comparar_registros (reg_lat d1 65) (reg_lat d2 66) 3 stats_zero).1 < 0
      ↔ Double.lt (chave_num 3 (reg_lat d1 65)) (chave_num 3 (reg_lat d2 66)) = true) ∧
    ((comparar_registros (reg_lat d1 65) (reg_lat d2 66) 3 stats_zero).1 < 0) :=
  ⟨((comparar_registros_ordem (reg_lat d1 65) (reg_lat d2 66) 3 stats_zero
      (by decide) (by decide)).2 (Or.inl rfl)).1, by decide⟩

/-- C11 as stated fails for a NaN: by latitude, the record with latitude NaN and the
record with latitude 1.0 compare as zero although the two latitudes are not equal,
neither as numbers nor bit for bit. -/
theorem comparar_registros_nan :
    (comparar_registros (reg_lat dNaN 65) (reg_lat d1 66) 3 stats_zero).1 = 0 ∧
    Double.eq (reg_lat dNaN 65).lat (reg_lat d1 66).lat = false ∧
    (reg_lat dNaN 65).lat ≠ (reg_lat d1 66).lat := by
  decide

/-! ## Termination of the recursion -/

theorem ponto_medio_limites (left right : Int) (h : left < right) :
    left ≤ ponto_medio left right ∧ ponto_medio left right < right := by
  rw [ponto_medio_eq left right (by omega)]
  omega

theorem mergeSort_chamadas_spec (campo : Int) :
    ∀ (f : Nat) (left right : Int), (right - left).toNat < f →
      ∃ calls, mergeSort_chamadas f left right = some calls ∧
        (∀ c ∈ calls, left ≤ c.1 ∧ c.1 ≤ c.2.1 ∧ c.2.1 < c.2.2 ∧ c.2.2 ≤ right) ∧
        ∀ (arr : List Registro) (st : Estatisticas),
          mergeSort_fuel f arr left right campo st
            = calls.foldlM (aplicar_merge campo) (arr, st) := by
  intro f
  induction f with
  | zero => intro left right h; omega
  | succ f ih =>
    intro left right hf
    by_cases hlt : left < right
    · have hm := ponto_medio_limites left right hlt
      unfold ponto_medio at hm
      obtain ⟨c1, e1, b1, r1⟩ := ih left (left + (right - left).tdiv 2) (by omega)
      obtain ⟨c2, e2, b2, r2⟩ := ih (left + (right - left).tdiv 2 + 1) right (by omega)
      refine ⟨c1 ++ c2 ++ [(left, left + (right - left).tdiv 2, right)], ?_, ?_, ?_⟩
      · rw [mergeSort_chamadas, if_pos hlt]
        simp only [e1, e2]
      · intro c hc
        rcases List.mem_append.mp hc with hc | hc
        · rcases List.mem_append.mp hc with hc | hc
          · have := b1 c hc; omega
          · have := b2 c hc; omega
        · rw [List.mem_singleton] at hc
          subst hc
          simp only
          omega
      · intro arr st
        rw [mergeSort_fuel, if_pos hlt, List.foldlM_append, List.foldlM_append]
        simp only [r1, r2]
        cases h1 : List.foldlM (aplicar_merge campo) (arr, st) c1 with
        | none => rfl
        | some p1 =>
          obtain ⟨a1, s1⟩ := p1
          simp only [Option.bind_eq_bind, Option.some_bind]
          cases h2 : List.foldlM (aplicar_merge campo) (a1, s1) c2 with
          | none => rfl
          | some p2 =>
            obtain ⟨a2, s2⟩ := p2
            simp [aplicar_merge]
    · refine ⟨[], ?_, ?_, ?_⟩
      · rw [mergeSort_chamadas, if_neg hlt]
      · intro c hc; simp at hc
      · intro arr st
        rw [mergeSort_fuel, if_neg hlt]
        rfl

/-- C12 (termination).  For every array and every pair of indices `left`, `right`,
the recursion of `mergeSort` comes to its end within the depth `right - left + 1`:
it makes a finite list of `merge` calls, each with `left <= l <= m < r <= right`
(two non-empty halves), and the result of `mergeSort` is that of making these calls
one after the other.  In the recursive case `left < right` the midpoint satisfies
`left <= middle < right`, so both recursive calls are on strictly shorter ranges.
When the range is empty, a single record, or lies inside the array, `mergeSort`
returns. -/
theorem mergeSort_termina (arr : List Registro) (left right campo : Int)
    (st : Estatisticas) :
    (∃ calls, mergeSort_chamadas ((right - left).toNat + 1) left right = some calls ∧
      (∀ c ∈ calls, left ≤ c.1 ∧ c.1 ≤ c.2.1 ∧ c.2.1 < c.2.2 ∧ c.2.2 ≤ right) ∧
      mergeSort arr left right campo st = calls.foldlM (aplicar_merge campo) (arr, st)) ∧
    (left < right →
      left ≤ ponto_medio left right ∧ ponto_medio left right < right ∧
      ponto_medio left right - left < right - left ∧
      right - (ponto_medio left right + 1) < right - left) ∧
    ((right ≤ left ∨ (0 ≤ left ∧ right < (arr.length : Int))) →
      ∃ out st1, mergeSort arr left right campo st = some (out, st1)) := by
  refine ⟨?_, ?_, ?_⟩
  · obtain ⟨calls, e, b, r⟩ := mergeSort_chamadas_spec campo ((right - left).toNat + 1)
      left right (by omega)
    exact ⟨calls, e, b, r arr st⟩
  · intro h
    have := ponto_medio_limites left right h
    omega
  · intro h
    by_cases hle : right ≤ left
    · have hlt : ¬ left < right := by omega
      exact ⟨arr, st, by rw [mergeSort, mergeSort_fuel, if_neg hlt]⟩
    · have hb : 0 ≤ left ∧ right < (arr.length : Int) := by
        rcases h with h | h
        · exact absurd h hle
        · exact h
      obtain ⟨pre, l, post, f, _, _, _, _, hrun⟩ :=
        mergeSort_range_spec arr left right campo st hb.1 (by omega) hb.2
      exact ⟨_, _, hrun⟩

theorem mergeSort_chamadas_copias :
    ∀ (f : Nat) (left right : Int), (right - left).toNat < f →
      ∀ calls, mergeSort_chamadas f left right = some calls →
        (calls.map fun c => 2 * (c.2.2 - c.1 + 1)).sum = (M (right - left + 1).toNat : Int) := by
  intro f
  induction f with
  | zero => intro left right h; omega
  | succ f ih =>
    intro left right hf calls hc
    by_cases hlt : left < right
    · have hm := ponto_medio_limites left right hlt
      have hmeq := ponto_medio_eq left right (by omega)
      unfold ponto_medio at hm hmeq
      rw [mergeSort_chamadas, if_pos hlt] at hc
      simp only at hc
      cases e1 : mergeSort_chamadas f left (left + (right - left).tdiv 2) with
      | none => rw [e1] at hc; simp at hc
      | some c1 =>
        cases e2 : mergeSort_chamadas f (left + (right - left).tdiv 2 + 1) right with
        | none => rw [e1, e2] at hc; simp at hc
        | some c2 =>
          rw [e1, e2] at hc
          simp only [Option.some.injEq] at hc
          subst hc
          have s1 := ih left (left + (right - left).tdiv 2) (by omega) c1 e1
          have s2 := ih (left + (right - left).tdiv 2 + 1) right (by omega) c2 e2
          have hn : 2 ≤ (right - left + 1).toNat := by omega
          have k1 : (left + (right - left).tdiv 2 - left + 1).toNat
              = ((right - left + 1).toNat + 1) / 2 := by omega
          have k2 : (right - (left + (right - left).tdiv 2 + 1) + 1).toNat
              = (right - left + 1).toNat / 2 := by omega
          rw [k1] at s1
          rw [k2] at s2
          rw [List.map_append, List.map_append, List.sum_append, List.sum_append, s1, s2,
            M_step _ hn]
          simp only [List.map_cons, List.map_nil, List.sum_cons, List.sum_nil]
          push_cast
          omega
    · rw [mergeSort_chamadas, if_neg hlt] at hc
      simp only [Option.some.injEq] at hc
      subst hc
      rw [M_small _ (by omega)]
      rfl

/-- C14 (total movements).  For every array of `n` records and every field key,
`mergeSort(arr, 0, n-1, campo)` returns and adds exactly `M(n)` to the movement
counter, where `M(n) = 0` for `n <= 1` and
`M(n) = M(ceil(n/2)) + M(floor(n/2)) + 2n` for `n >= 2`; so `M(2) = 4`,
`M(3) = 10`, `M(5) = 24`.  `M(n)` is also the sum, over the `merge` calls
`(l, m, r)` that the sort makes, of the `2 * (r - l + 1)` record copies of each. -/
theorem mergeSort_total_movimentacoes :
    (∀ (arr : List Registro) (campo : Int) (st : Estatisticas),
      ∃ out st1, mergeSort arr 0 ((arr.length : Int) - 1) campo st = some (out, st1) ∧
        st1.movimentacoes = st.movimentacoes + (M arr.length : Int)) ∧
    (∀ n : Nat, n ≤ 1 → M n = 0) ∧
    (∀ n : Nat, 2 ≤ n → M n = M ((n + 1) / 2) + M (n / 2) + 2 * n) ∧
    M 2 = 4 ∧ M 3 = 10 ∧ M 5 = 24 ∧
    (∀ n : Nat, ∃ calls,
      mergeSort_chamadas ((((n : Int) - 1) - 0).toNat + 1) 0 ((n : Int) - 1) = some calls ∧
      (calls.map fun c => 2 * (c.2.2 - c.1 + 1)).sum = (M n : Int)) := by
  refine ⟨?_, M_small, M_step, ?_, ?_, ?_, ?_⟩
  · intro arr campo st
    obtain ⟨f, hf, h⟩ := mergeSort_spec campo arr st
    refine ⟨_, _, h, ?_⟩
    show st.movimentacoes + (ordena_movs f arr.length : Int) = _
    rw [ordena_movs_eq_M f arr.length hf]
  · rw [← ordena_movs_eq_M 2 2 (le_refl _)]; decide
  · rw [← ordena_movs_eq_M 3 3 (le_refl _)]; decide
  · rw [← ordena_movs_eq_M 5 5 (le_refl _)]; decide
  · intro n
    obtain ⟨calls, e, _, _⟩ := mergeSort_chamadas_spec 0 ((((n : Int) - 1) - 0).toNat + 1) 0
      ((n : Int) - 1) (by omega)
    refine ⟨calls, e, ?_⟩
    have := mergeSort_chamadas_copias _ 0 ((n : Int) - 1) (by omega) calls e
    have hn : ((n : Int) - 1 - 0 + 1).toNat = n := by omega
    rw [this, hn]

/-! ## Ties in one merge -/

theorem sublist_intercala_esq {α : Type} (le : α → α → Bool) :
    ∀ xs ys : List α, List.Sublist xs (intercala le xs ys) := by
  intro xs
  induction xs with
  | nil => intro ys; exact List.nil_sublist _
  | cons x xs ihx =>
    intro ys
    induction ys with
    | nil => simp [intercala]
    | cons y ys ihy =>
      rw [intercala]
      split_ifs
      · exact List.Sublist.cons₂ _ (ihx (y :: ys))
      · exact List.Sublist.cons _ ihy

theorem sublist_intercala_dir {α : Type} (le : α → α → Bool) :
    ∀ xs ys : List α, List.Sublist ys (intercala le xs ys) := by
  intro xs
  induction xs with
  | nil => intro ys; simp [intercala]
  | cons x xs ihx =>
    intro ys
    induction ys with
    | nil => exact List.nil_sublist _
    | cons y ys ihy =>
      rw [intercala]
      split_ifs
      · exact List.Sublist.cons _ (ihx (y :: ys))
      · exact List.Sublist.cons₂ _ ihy

theorem get_enumFrom_of_get {α : Type} (n : Nat) (l : List α) (i : Nat) (a : α)
    (hi : n ≤ i) (h : l[i - n]? = some a) : (List.enumFrom n l)[i - n]? = some (i, a) := by
  rw [List.getElem?_enumFrom, h]
  have : n + (i - n) = i := by omega
  simp [this]

theorem empates_decomposto (campo : Int) (pre xs ys post : List Registro)
    (left middle right : Int) (st : Estatisticas)
    (hl : left = (pre.length : Int))
    (hm : middle = (pre.length : Int) + (xs.length : Int) - 1)
    (hr : right = middle + (ys.length : Int))
    (hsx : ∀ r ∈ xs, chave_sem_nan campo r = true)
    (hcx : List.Chain' (fun a b => nao_maior campo a b = true) xs) :
    empates_a_esquerda campo (pre ++ xs ++ ys ++ post) left middle right st := by
  have hrun := merge_spec campo pre xs ys post left middle right st hl hm hr
  have htot : ∀ a b : Nat × Registro, nao_maior campo a.2 b.2 = false →
      nao_maior campo b.2 a.2 = true := fun a b => nao_maior_total campo a.2 b.2
  have htr : ∀ a b c : Nat × Registro, chave_sem_nan campo b.2 = true →
      nao_maior campo a.2 b.2 = true → nao_maior campo b.2 c.2 = true →
      nao_maior campo a.2 c.2 = true := fun a b c => nao_maior_trans campo a.2 b.2 c.2
  -- the two runs, each record tagged with its position in the array
  generalize hX : List.enumFrom pre.length xs = X
  generalize hY : List.enumFrom (pre.length + xs.length) ys = Y
  generalize hT : intercala (fun a b : Nat × Registro => nao_maior campo a.2 b.2) X Y = T
  have hXs : X.map Prod.snd = xs := by rw [← hX, List.enumFrom_map_snd]
  have hYs : Y.map Prod.snd = ys := by rw [← hY, List.enumFrom_map_snd]
  have hTs : T.map Prod.snd = intercala (nao_maior campo) xs ys := by
    rw [← hT, intercala_map Prod.snd (nao_maior campo), hXs, hYs]
  have hTperm : T.Perm (X ++ Y) := by rw [← hT]; exact perm_intercala _ X Y
  have hTlen : T.length = xs.length + ys.length := by
    rw [hTperm.length_eq, List.length_append, ← hX, ← hY, List.enumFrom_length,
      List.enumFrom_length]
  have harr : ∀ q r, (q, r) ∈ T → (pre ++ xs ++ ys ++ post)[q]? = some r := by
    intro q r hq
    rcases List.mem_append.mp (hTperm.mem_iff.mp hq) with h | h
    · rw [← hX] at h
      obtain ⟨h1, h2, h3⟩ := List.mem_enumFrom h
      have e := getElem?_mid pre xs (ys ++ post) (q - pre.length) (by omega)
      have e4 : pre.length + (q - pre.length) = q := by omega
      simp only [← List.append_assoc] at e
      rw [e4] at e
      rw [e, h3, List.getElem?_eq_getElem]
    · rw [← hY] at h
      obtain ⟨h1, h2, h3⟩ := List.mem_enumFrom h
      have e := getElem?_mid (pre ++ xs) ys post (q - (pre.length + xs.length)) (by omega)
      have e4 : (pre ++ xs).length + (q - (pre.length + xs.length)) = q := by
        rw [List.length_append]; omega
      rw [e4] at e
      rw [e, h3, List.getElem?_eq_getElem]
  have hXget : ∀ (i : Nat) (a : Registro), pre.length ≤ i → i < pre.length + xs.length →
      (pre ++ xs ++ ys ++ post)[i]? = some a → X[i - pre.length]? = some (i, a) := by
    intro i a h1 h2 ha
    have e := getElem?_mid pre xs (ys ++ post) (i - pre.length) (by omega)
    have e4 : pre.length + (i - pre.length) = i := by omega
    simp only [← List.append_assoc] at e
    rw [e4, ha] at e
    rw [← hX]
    exact get_enumFrom_of_get _ _ _ _ h1 e.symm
  have hYget : ∀ (j : Nat) (b : Registro), pre.length + xs.length ≤ j →
      j < pre.length + xs.length + ys.length →
      (pre ++ xs ++ ys ++ post)[j]? = some b →
      Y[j - (pre.length + xs.length)]? = some (j, b) := by
    intro j b h1 h2 hb
    have e := getElem?_mid (pre ++ xs) ys post (j - (pre.length + xs.length)) (by omega)
    have e4 : (pre ++ xs).length + (j - (pre.length + xs.length)) = j := by
      rw [List.length_append]; omega
    rw [e4, hb] at e
    rw [← hY]
    exact get_enumFrom_of_get _ _ _ _ h1 e.symm
  have hsome : ∀ i : Nat, i < (pre ++ xs ++ ys ++ post).length →
      ∃ a, (pre ++ xs ++ ys ++ post)[i]? = some a :=
    fun i hi => ⟨_, List.getElem?_eq_getElem hi⟩
  have hlenarr : (pre ++ xs ++ ys ++ post).length
      = pre.length + xs.length + ys.length + post.length := by
    simp only [List.length_append]
  refine ⟨_, _, T.map Prod.fst, hrun, ?_, ?_, ?_, ?_⟩
  · have := hTperm.map Prod.fst
    rw [List.map_append, ← hX, ← hY, List.enumFrom_map_fst, List.enumFrom_map_fst,
      List.range'_append_1] at this
    have e1 : left.toNat = pre.length := by omega
    have e2 : (right - left + 1).toNat = ys.length + xs.length := by omega
    rw [e1, e2]
    exact this
  · intro p hp
    rw [List.length_map, hTlen] at hp
    have e1 : left.toNat = pre.length := by omega
    have e := getElem?_mid pre (intercala (nao_maior campo) xs ys) post p
      (by rw [length_intercala]; exact hp)
    rw [e1, e, ← hTs, List.getElem?_map, List.getElem?_map]
    cases hq : T[p]? with
    | none => rfl
    | some qr =>
      simp only [Option.map_some', Option.some_bind]
      exact (harr qr.1 qr.2 (List.mem_iff_getElem?.mpr ⟨p, hq⟩)).symm
  · intro i j a b h1 h2 h3 h4 ha hb hab
    have hab1 : nao_maior campo a b = true :=
      (nao_maior_iff campo a b st).mp (le_of_eq hab)
    have hba1 : nao_maior campo b a = true := by
      have := valor_comparacao_swap campo a b
      rw [← comparar_registros_fst a b campo st, hab] at this
      unfold nao_maior
      simp [this]
    have hxi := hXget i a (by omega) (by omega) ha
    have hyj := hYget j b (by omega) (by omega) hb
    have hax : a ∈ xs := by
      rw [← hXs]
      exact List.mem_map.mpr ⟨(i, a), List.mem_iff_getElem?.mpr ⟨_, hxi⟩, rfl⟩
    have hXS : ∀ z ∈ X, chave_sem_nan campo z.2 = true := by
      intro z hz
      exact hsx z.2 (by rw [← hXs]; exact List.mem_map.mpr ⟨z, hz, rfl⟩)
    have hXc : List.Chain' (fun a b : Nat × Registro => nao_maior campo a.2 b.2 = true) X := by
      have := hcx
      rw [← hXs, List.chain'_map] at this
      exact this
    have hXp := pairwise_of_chain (fun a b : Nat × Registro => nao_maior campo a.2 b.2)
      (fun z => chave_sem_nan campo z.2 = true) htr X hXS hXc
    have hfil := filter_intercala (fun a b : Nat × Registro => nao_maior campo a.2 b.2)
      (fun z => chave_sem_nan campo z.2 = true) htot htr (i, a) (hsx a hax) X Y hXS hXp
    rw [hT] at hfil
    have m1 : (i, a) ∈ X.filter
        (fun z : Nat × Registro => nao_maior campo a z.2 && nao_maior campo z.2 a) :=
      List.mem_filter.mpr ⟨List.mem_iff_getElem?.mpr ⟨_, hxi⟩, by simp [nao_maior_refl]⟩
    have m2 : (j, b) ∈ Y.filter
        (fun z : Nat × Registro => nao_maior campo a z.2 && nao_maior campo z.2 a) :=
      List.mem_filter.mpr ⟨List.mem_iff_getElem?.mpr ⟨_, hyj⟩, by simp [hab1, hba1]⟩
    have hsub : List.Sublist [(i, a), (j, b)] T := by
      have := (List.singleton_sublist.mpr m1).append (List.singleton_sublist.mpr m2)
      rw [← hfil] at this
      exact this.trans (List.filter_sublist _)
    exact get_of_sublist_pair _ i j (hsub.map Prod.fst)
  · intro i j hij hcase
    rcases hcase with ⟨h1, h2⟩ | ⟨h1, h2⟩
    · obtain ⟨a, ha⟩ := hsome i (by rw [hlenarr]; omega)
      obtain ⟨b, hb⟩ := hsome j (by rw [hlenarr]; omega)
      have hxi := hXget i a (by omega) (by omega) ha
      have hxj := hXget j b (by omega) (by omega) hb
      have hsub := sublist_pair_of_get X _ _ (i, a) (j, b) (by omega) hxi hxj
      have hXT : List.Sublist X T := by rw [← hT]; exact sublist_intercala_esq _ X Y
      exact get_of_sublist_pair _ i j ((hsub.trans hXT).map Prod.fst)
    · obtain ⟨a, ha⟩ := hsome i (by rw [hlenarr]; omega)
      obtain ⟨b, hb⟩ := hsome j (by rw [hlenarr]; omega)
      have hyi := hYget i a (by omega) (by omega) ha
      have hyj := hYget j b (by omega) (by omega) hb
      have hsub := sublist_pair_of_get Y _ _ (i, a) (j, b) (by omega) hyi hyj
      have hYT : List.Sublist Y T := by rw [← hT]; exact sublist_intercala_dir _ X Y
      exact get_of_sublist_pair _ i j ((hsub.trans hYT).map Prod.fst)

/-- C13 (ties go left), as amended.  For every array, field key and indices
`0 <= left <= middle < right < len` such that the left run `arr[left..middle]` is
sorted and none of its records has a NaN as its key: after
`merge(arr, left, middle, right, campo)` every record that came from the left run
precedes every record from the right run that compares equal to it, and records
that came from the same run keep their relative order. -/
theorem merge_empates (arr : List Registro) (left middle right campo : Int)
    (st : Estatisticas) (h0 : 0 ≤ left) (h1 : left ≤ middle) (h2 : middle < right)
    (h3 : right < (arr.length : Int))
    (hs : ordenado_em campo arr left middle st)
    (hnan : ∀ (i : Nat) (a : Registro), left ≤ (i : Int) → (i : Int) ≤ middle →
      arr[i]? = some a → chave_sem_nan campo a = true) :
    empates_a_esquerda campo arr left middle right st := by
  obtain ⟨pre, xs, ys, post, rfl, hl, hm, hr⟩ :=
    decompor arr left middle right h0 (by omega) (by omega) h3
  have hget : ∀ (i : Nat) (a : Registro), xs[i]? = some a →
      i < xs.length ∧ (pre ++ xs ++ ys ++ post)[pre.length + i]? = some a := by
    intro i a ha
    have hi : i < xs.length := by
      by_contra hc
      rw [List.getElem?_eq_none (by omega)] at ha
      exact absurd ha (by simp)
    have e := getElem?_mid pre xs (ys ++ post) i hi
    simp only [← List.append_assoc] at e
    exact ⟨hi, by rw [e]; exact ha⟩
  apply empates_decomposto campo pre xs ys post left middle right st hl hm hr
  · intro r hr'
    obtain ⟨i, hi⟩ := List.mem_iff_getElem?.mp hr'
    obtain ⟨hlt, hg⟩ := hget i r hi
    exact hnan (pre.length + i) r (by push_cast; omega) (by push_cast; omega) hg
  · apply chain'_of_get
    intro i a b ha hb
    obtain ⟨_, ga⟩ := hget i a ha
    obtain ⟨hlt, gb⟩ := hget (i + 1) b hb
    exact (nao_maior_iff campo a b st).mp
      (hs (pre.length + i) a b (by push_cast; omega) (by push_cast; omega) ga
        (by rw [Nat.add_assoc]; exact gb))

/-- C13 at a concrete input: the runs `[1.0, 2.0]` and `[1.0, 2.0]` of a four-record
array. -/
theorem merge_empates_witness :
    empates_a_esquerda 3 [reg_lat d1 65, reg_lat d2 66, reg_lat d1 67, reg_lat d2 68]
      0 1 3 stats_zero :=
  merge_empates [reg_lat d1 65, reg_lat d2 66, reg_lat d1 67, reg_lat d2 68] 0 1 3 3
    stats_zero (by decide) (by decide) (by decide) (by decide)
    (by
      intro i a b h1 h2 ha hb
      have hi : i = 0 := by omega
      subst hi
      simp at ha hb
      subst ha hb
      decide)
    (by
      intro i a h1 h2 ha
      have hi : i = 0 ∨ i = 1 := by omega
      rcases hi with hi | hi <;> subst hi <;> simp at ha <;> subst ha <;> decide)

/-- C13 as stated fails with a NaN in the left run.  In latitudes 5.0, NaN, 1.0 the
runs `[5.0, NaN]` and `[1.0]` are both sorted, the NaN record of the left run and
the 1.0 record of the right run compare equal, and `merge` by latitude puts the 1.0
record first. -/
theorem merge_empates_nan :
    ordenado_em 3 arr_nan 0 1 stats_zero ∧ ordenado_em 3 arr_nan 2 2 stats_zero ∧
    ¬ empates_a_esquerda 3 arr_nan 0 1 2 stats_zero := by
  refine ⟨?_, ?_, ?_⟩
  · intro i a b h1 h2 ha hb
    have hi : i = 0 := by omega
    subst hi
    simp [arr_nan] at ha hb
    subst ha hb
    decide
  · intro i a b h1 h2 ha hb
    omega
  · rintro ⟨out, st1, σ, hrun, hperm, hidx, hties, _⟩
    have hout : out = [reg_lat d1 67, reg_lat d5 65, reg_lat dNaN 66] := by
      have e : merge arr_nan 0 1 2 3 stats_zero
          = some ([reg_lat d1 67, reg_lat d5 65, reg_lat dNaN 66], ⟨1, 6, ⟨0⟩⟩) := by decide
      rw [e] at hrun
      exact (congrArg Prod.fst (Option.some.inj hrun)).symm
    subst hout
    have hlen : σ.length = 3 := by rw [hperm.length_eq]; decide
    have h0 : σ[0]? = some 2 := by
      have := hidx 0 (by omega)
      cases hq : σ[0]? with
      | none => rw [hq] at this; simp at this
      | some q =>
        rw [hq] at this
        match q, this with
        | 0, this => exact absurd this (by decide)
        | 1, this => exact absurd this (by decide)
        | 2, _ => rfl
        | q + 3, this => exact absurd this (by simp [arr_nan])
    obtain ⟨p, q, hpq, hp, hq⟩ := hties 1 2 (reg_lat dNaN 66) (reg_lat d1 67) (by decide)
      (by decide) (by decide) (by decide) (by decide) (by decide) (by decide)
    have hnd : σ.Nodup := hperm.nodup_iff.mpr (List.nodup_range' _ _)
    have hq0 : q = 0 := by
      have hql : q < σ.length := by
        by_contra hc
        rw [List.getElem?_eq_none (by omega)] at hq
        exact absurd hq (by simp)
      have h0l : 0 < σ.length := by omega
      have e1 : σ[q] = 2 := by
        rw [List.getElem?_eq_getElem hql] at hq
        exact Option.some.inj hq
      have e2 : σ[0] = 2 := by
        rw [List.getElem?_eq_getElem h0l] at h0
        exact Option.some.inj h0
      exact (List.Nodup.getElem_inj_iff hnd).mp (e1.trans e2.symm)
    omega

/-! ## The memory accesses of `merge` are in bounds -/

theorem intervalo_append : ∀ (n m : Nat) (a : Int),
    intervalo a n ++ intervalo (a + n) m = intervalo a (n + m) := by
  intro n
  induction n with
  | zero => intro m a; simp [intervalo]
  | succ n ih =>
    intro m a
    have h := ih m (a + 1)
    have e : a + 1 + (n : Int) = a + ((n + 1 : Nat) : Int) := by push_cast; omega
    rw [e] at h
    rw [Nat.add_right_comm, intervalo, intervalo, List.cons_append, h]

theorem mem_intervalo : ∀ (n : Nat) (a x : Int), x ∈ intervalo a n → a ≤ x ∧ x < a + n := by
  intro n
  induction n with
  | zero => intro a x h; simp [intervalo] at h
  | succ n ih =>
    intro a x h
    rw [intervalo, List.mem_cons] at h
    rcases h with h | h
    · subst h; push_cast; omega
    · have := ih (a + 1) x h
      push_cast
      omega

theorem escritas_arr_append (s t : List Acesso) :
    escritas_arr (s ++ t) = escritas_arr s ++ escritas_arr t := by
  unfold escritas_arr
  rw [List.filterMap_append]

theorem mem_escritas_arr (t : List Acesso) (a : Acesso) (h : a ∈ t)
    (h1 : a.alvo = Alvo.arr) (h2 : a.escrita = true) : a.indice ∈ escritas_arr t := by
  unfold escritas_arr
  rw [List.mem_filterMap]
  exact ⟨a, h, by simp [h1, h2]⟩

theorem copiar_para_temp_acessos_spec (alvo : Alvo) (base n : Int) :
    ∀ (fuel : Nat) (i : Int) (a : Acesso),
      a ∈ copiar_para_temp_acessos alvo base n fuel i →
      (a.alvo = Alvo.arr ∧ a.escrita = false ∧ base + i ≤ a.indice ∧ a.indice < base + n) ∨
      (a.alvo = alvo ∧ a.escrita = true ∧ i ≤ a.indice ∧ a.indice < n) := by
  intro fuel
  induction fuel with
  | zero => intro i a h; simp [copiar_para_temp_acessos] at h
  | succ f ih =>
    intro i a h
    rw [copiar_para_temp_acessos] at h
    split_ifs at h with hi
    · rw [List.mem_cons, List.mem_cons] at h
      rcases h with h | h | h
      · subst h; left; exact ⟨rfl, rfl, by dsimp only; omega, by dsimp only; omega⟩
      · subst h; right; exact ⟨rfl, rfl, by dsimp only; omega, by dsimp only; omega⟩
      · rcases ih (i + 1) a h with h' | h'
        · left; exact ⟨h'.1, h'.2.1, by omega, by omega⟩
        · right; exact ⟨h'.1, h'.2.1, by omega, by omega⟩
    · simp at h

theorem laco_intercalar_acessos_spec (L R : Buffer) (n1 n2 campo : Int) :
    ∀ (fuel : Nat) (s : MergeState) (a : Acesso),
      a ∈ laco_intercalar_acessos L R n1 n2 campo fuel s →
      (a.alvo = Alvo.L ∧ s.i ≤ a.indice ∧ a.indice < n1) ∨
      (a.alvo = Alvo.R ∧ s.j ≤ a.indice ∧ a.indice < n2) ∨
      (a.alvo = Alvo.arr ∧ a.escrita = true) := by
  intro fuel
  induction fuel with
  | zero => intro s a h; simp [laco_intercalar_acessos] at h
  | succ f ih =>
    intro s a h
    rw [laco_intercalar_acessos] at h
    split_ifs at h with hg
    · rw [List.mem_cons, List.mem_cons] at h
      rcases h with h | h | h
      · subst h; left; exact ⟨rfl, by dsimp only; omega, by dsimp only; omega⟩
      · subst h; right; left; exact ⟨rfl, by dsimp only; omega, by dsimp only; omega⟩
      · split at h
        · simp only at h
          split_ifs at h with hc
          · rw [List.mem_cons, List.mem_cons] at h
            rcases h with h | h | h
            · subst h; left; exact ⟨rfl, by dsimp only; omega, by dsimp only; omega⟩
            · subst h; right; right; exact ⟨rfl, rfl⟩
            · split at h
              · simp at h
              · rcases ih _ a h with h' | h' | h'
                · left; dsimp only at h'; exact ⟨h'.1, by omega, by omega⟩
                · right; left; dsimp only at h'; exact ⟨h'.1, by omega, by omega⟩
                · right; right; exact h'
          · rw [List.mem_cons, List.mem_cons] at h
            rcases h with h | h | h
            · subst h; right; left; exact ⟨rfl, by dsimp only; omega, by dsimp only; omega⟩
            · subst h; right; right; exact ⟨rfl, rfl⟩
            · split at h
              · simp at h
              · rcases ih _ a h with h' | h' | h'
                · left; dsimp only at h'; exact ⟨h'.1, by omega, by omega⟩
                · right; left; dsimp only at h'; exact ⟨h'.1, by omega, by omega⟩
                · right; right; exact h'
        · simp at h
    · simp at h

theorem laco_resto_L_acessos_spec (L : Buffer) (n1 : Int) :
    ∀ (fuel : Nat) (s : MergeState) (a : Acesso),
      a ∈ laco_resto_L_acessos L n1 fuel s →
      (a.alvo = Alvo.L ∧ s.i ≤ a.indice ∧ a.indice < n1) ∨
      (a.alvo = Alvo.arr ∧ a.escrita = true) := by
  intro fuel
  induction fuel with
  | zero => intro s a h; simp [laco_resto_L_acessos] at h
  | succ f ih =>
    intro s a h
    rw [laco_resto_L_acessos] at h
    split_ifs at h with hg
    · rw [List.mem_cons, List.mem_cons] at h
      rcases h with h | h | h
      · subst h; left; exact ⟨rfl, by dsimp only; omega, by dsimp only; omega⟩
      · subst h; right; exact ⟨rfl, rfl⟩
      · split at h
        · simp at h
        · split at h
          · simp at h
          · rcases ih _ a h with h' | h'
            · left; dsimp only at h'; exact ⟨h'.1, by omega, by omega⟩
            · right; exact h'
    · simp at h

theorem laco_resto_R_acessos_spec (R : Buffer) (n2 : Int) :
    ∀ (fuel : Nat) (s : MergeState) (a : Acesso),
      a ∈ laco_resto_R_acessos R n2 fuel s →
      (a.alvo = Alvo.R ∧ s.j ≤ a.indice ∧ a.indice < n2) ∨
      (a.alvo = Alvo.arr ∧ a.escrita = true) := by
  intro fuel
  induction fuel with
  | zero => intro s a h; simp [laco_resto_R_acessos] at h
  | succ f ih =>
    intro s a h
    rw [laco_resto_R_acessos] at h
    split_ifs at h with hg
    · rw [List.mem_cons, List.mem_cons] at h
      rcases h with h | h | h
      · subst h; left; exact ⟨rfl, by dsimp only; omega, by dsimp only; omega⟩
      · subst h; right; exact ⟨rfl, rfl⟩
      · split at h
        · simp at h
        · split at h
          · simp at h
          · rcases ih _ a h with h' | h'
            · left; dsimp only at h'; exact ⟨h'.1, by omega, by omega⟩
            · right; exact h'
    · simp at h

theorem escritas_arr_leitura (alvo : Alvo) (i : Int) (t : List Acesso) :
    escritas_arr (⟨alvo, false, i⟩ :: t) = escritas_arr t := by
  simp [escritas_arr, List.filterMap_cons]

theorem escritas_arr_escrita (i : Int) (t : List Acesso) :
    escritas_arr (⟨Alvo.arr, true, i⟩ :: t) = i :: escritas_arr t := by
  simp [escritas_arr, List.filterMap_cons]

theorem escritas_arr_temp (alvo : Alvo) (h : alvo ≠ Alvo.arr) (i : Int) (t : List Acesso) :
    escritas_arr (⟨alvo, true, i⟩ :: t) = escritas_arr t := by
  simp [escritas_arr, List.filterMap_cons, h]

theorem copiar_para_temp_acessos_escritas (alvo : Alvo) (h : alvo ≠ Alvo.arr)
    (base n : Int) :
    ∀ (fuel : Nat) (i : Int),
      escritas_arr (copiar_para_temp_acessos alvo base n fuel i) = [] := by
  intro fuel
  induction fuel with
  | zero => intro i; rfl
  | succ f ih =>
    intro i
    rw [copiar_para_temp_acessos]
    split_ifs
    · rw [escritas_arr_leitura, escritas_arr_temp alvo h, ih]
    · rfl

theorem intervalo_succ (a : Int) (n : Nat) (k2 : Int) (h : k2 = a + 1 + n) :
    k2 = a + ((n + 1 : Nat) : Int) := by
  push_cast; omega

theorem laco_intercalar_escritas (L R : Buffer) (n1 n2 campo : Int) :
    ∀ (fuel : Nat) (s s2 : MergeState),
      laco_intercalar L R n1 n2 campo fuel s = some s2 →
      ∃ n : Nat, s2.k = s.k + n ∧ s.i ≤ s2.i ∧ s.j ≤ s2.j ∧
        escritas_arr (laco_intercalar_acessos L R n1 n2 campo fuel s) = intervalo s.k n := by
  intro fuel
  induction fuel with
  | zero => intro s s2 h; simp [laco_intercalar] at h
  | succ f ih =>
    intro s s2 h
    rw [laco_intercalar] at h
    rw [laco_intercalar_acessos]
    by_cases hg : s.i < n1 ∧ s.j < n2
    · rw [if_pos hg] at h ⊢
      cases hL : readBuf L s.i with
      | none => simp [hL] at h
      | some a =>
        cases hR : readBuf R s.j with
        | none => simp [hL, hR] at h
        | some b =>
          simp only [hL, hR] at h ⊢
          by_cases hc : (comparar_registros a b campo s.stats).1 ≤ 0
          · rw [if_pos hc] at h ⊢
            cases hw : writeArr s.arr s.k a with
            | none => simp [hw] at h
            | some arr1 =>
              simp only [hw] at h ⊢
              obtain ⟨n, e1, e2, e3, e4⟩ := ih _ s2 h
              dsimp only at e1 e2 e3 e4
              refine ⟨n + 1, intervalo_succ _ _ _ e1, by omega, e3, ?_⟩
              rw [escritas_arr_leitura, escritas_arr_leitura, escritas_arr_leitura,
                escritas_arr_escrita, e4, intervalo]
          · rw [if_neg hc] at h ⊢
            cases hw : writeArr s.arr s.k b with
            | none => simp [hw] at h
            | some arr1 =>
              simp only [hw] at h ⊢
              obtain ⟨n, e1, e2, e3, e4⟩ := ih _ s2 h
              dsimp only at e1 e2 e3 e4
              refine ⟨n + 1, intervalo_succ _ _ _ e1, e2, by omega, ?_⟩
              rw [escritas_arr_leitura, escritas_arr_leitura, escritas_arr_leitura,
                escritas_arr_escrita, e4, intervalo]
    · rw [if_neg hg] at h ⊢
      simp only [Option.some.injEq] at h
      subst h
      exact ⟨0, by simp, le_refl _, le_refl _, rfl⟩

theorem laco_resto_L_escritas (L : Buffer) (n1 : Int) :
    ∀ (fuel : Nat) (s s2 : MergeState),
      laco_resto_L L n1 fuel s = some s2 →
      ∃ n : Nat, s2.k = s.k + n ∧ s.i ≤ s2.i ∧ s2.j = s.j ∧
        escritas_arr (laco_resto_L_acessos L n1 fuel s) = intervalo s.k n := by
  intro fuel
  induction fuel with
  | zero => intro s s2 h; simp [laco_resto_L] at h
  | succ f ih =>
    intro s s2 h
    rw [laco_resto_L] at h
    rw [laco_resto_L_acessos]
    by_cases hg : s.i < n1
    · rw [if_pos hg] at h ⊢
      cases hL : readBuf L s.i with
      | none => simp [hL] at h
      | some a =>
        simp only [hL] at h ⊢
        cases hw : writeArr s.arr s.k a with
        | none => simp [hw] at h
        | some arr1 =>
          simp only [hw] at h ⊢
          obtain ⟨n, e1, e2, e3, e4⟩ := ih _ s2 h
          dsimp only at e1 e2 e3 e4
          refine ⟨n + 1, intervalo_succ _ _ _ e1, by omega, e3, ?_⟩
          rw [escritas_arr_leitura, escritas_arr_escrita, e4, intervalo]
    · rw [if_neg hg] at h ⊢
      simp only [Option.some.injEq] at h
      subst h
      exact ⟨0, by simp, le_refl _, rfl, rfl⟩

theorem laco_resto_R_escritas (R : Buffer) (n2 : Int) :
    ∀ (fuel : Nat) (s s2 : MergeState),
      laco_resto_R R n2 fuel s = some s2 →
      ∃ n : Nat, s2.k = s.k + n ∧ s.j ≤ s2.j ∧ s2.i = s.i ∧
        escritas_arr (laco_resto_R_acessos R n2 fuel s) = intervalo s.k n := by
  intro fuel
  induction fuel with
  | zero => intro s s2 h; simp [laco_resto_R] at h
  | succ f ih =>
    intro s s2 h
    rw [laco_resto_R] at h
    rw [laco_resto_R_acessos]
    by_cases hg : s.j < n2
    · rw [if_pos hg] at h ⊢
      cases hR : readBuf R s.j with
      | none => simp [hR] at h
      | some b =>
        simp only [hR] at h ⊢
        cases hw : writeArr s.arr s.k b with
        | none => simp [hw] at h
        | some arr1 =>
          simp only [hw] at h ⊢
          obtain ⟨n, e1, e2, e3, e4⟩ := ih _ s2 h
          dsimp only at e1 e2 e3 e4
          refine ⟨n + 1, intervalo_succ _ _ _ e1, by omega, e3, ?_⟩
          rw [escritas_arr_leitura, escritas_arr_escrita, e4, intervalo]
    · rw [if_neg hg] at h ⊢
      simp only [Option.some.injEq] at h
      subst h
      exact ⟨0, by simp, le_refl _, rfl, rfl⟩

/-- C19 (index safety).  For every array and indices
`0 <= left <= middle < right < len`, `merge(arr, left, middle, right, campo)` returns
with `k = right + 1`; every access it makes is in bounds (`arr` is read and written
only at indices in `[left, right]`, `L` is indexed only below `n1`, `R` only below
`n2`); and the writes to `arr` go to `left, left + 1, ..., right` in this order, each
position once.  The `merge` calls of `mergeSort(arr, 0, len-1, campo)` all have
`0 <= l <= m < r < len`, and that call returns. -/
theorem merge_indices (arr : List Registro) (left middle right campo : Int)
    (st : Estatisticas) (h0 : 0 ≤ left) (h1 : left ≤ middle) (h2 : middle < right)
    (h3 : right < (arr.length : Int)) :
    (∃ s, merge_estado arr left middle right campo st = some s ∧ s.k = right + 1) ∧
    (∀ a ∈ merge_acessos arr left middle right campo st,
      acesso_valido left middle right a) ∧
    escritas_arr (merge_acessos arr left middle right campo st)
      = intervalo left (right - left + 1).toNat ∧
    (∃ calls, mergeSort_chamadas ((((arr.length : Int) - 1) - 0).toNat + 1) 0
        ((arr.length : Int) - 1) = some calls ∧
      ∀ c ∈ calls, 0 ≤ c.1 ∧ c.1 ≤ c.2.1 ∧ c.2.1 < c.2.2 ∧ c.2.2 < (arr.length : Int)) ∧
    ∃ out st1, mergeSort arr 0 ((arr.length : Int) - 1) campo st = some (out, st1) := by
  obtain ⟨pre, xs, ys, post, harr, hl, hm, hr⟩ :=
    decompor arr left middle right h0 (by omega) (by omega) h3
  have hfin := merge_estado_spec campo pre xs ys post left middle right st hl hm hr
  rw [← harr] at hfin
  -- the states between the loops
  have hchain := hfin
  unfold merge_estado at hchain
  simp only [Option.bind_eq_some] at hchain
  obtain ⟨p1, hp1, p2, hp2, s1, hs1, s2, hs2, hs3⟩ := hchain
  obtain ⟨na, ka, ia, ja, wa⟩ := laco_intercalar_escritas _ _ _ _ _ _ _ _ hs1
  obtain ⟨nb, kb, ib, jb, wb⟩ := laco_resto_L_escritas _ _ _ _ _ hs2
  obtain ⟨nc, kc, jc, ic, wc⟩ := laco_resto_R_escritas _ _ _ _ _ hs3
  dsimp only at ka ia ja
  have htrace : merge_acessos arr left middle right campo st
      = copiar_para_temp_acessos Alvo.L left (middle - left + 1)
          ((middle - left + 1).toNat + 1) 0 ++
        copiar_para_temp_acessos Alvo.R (middle + 1) (right - middle)
          ((right - middle).toNat + 1) 0 ++
        (laco_intercalar_acessos p1.1 p2.1 (middle - left + 1) (right - middle) campo
            ((middle - left + 1).toNat + (right - middle).toNat + 1)
            ⟨0, 0, left, arr, p2.2⟩ ++
          (laco_resto_L_acessos p1.1 (middle - left + 1) ((middle - left + 1).toNat + 1) s1 ++
            laco_resto_R_acessos p2.1 (right - middle) ((right - middle).toNat + 1) s2)) := by
    unfold merge_acessos
    simp only [hp1, hp2, hs1, hs2]
  have hesc : escritas_arr (merge_acessos arr left middle right campo st)
      = intervalo left (right - left + 1).toNat := by
    rw [htrace, escritas_arr_append, escritas_arr_append, escritas_arr_append,
      escritas_arr_append,
      copiar_para_temp_acessos_escritas Alvo.L (by decide),
      copiar_para_temp_acessos_escritas Alvo.R (by decide), wa, wb, wc, kb, ka]
    dsimp only
    have e1 : left + (na : Int) + (nb : Int) = left + ((na + nb : Nat) : Int) := by
      push_cast; omega
    rw [List.nil_append, List.nil_append, ← List.append_assoc, intervalo_append, e1,
      intervalo_append]
    congr 1
    have hk := kc
    rw [kb, ka] at hk
    dsimp only at hk
    omega
  refine ⟨⟨_, hfin, rfl⟩, ?_, hesc, ?_, ?_⟩
  · intro a ha
    have hw : a.alvo = Alvo.arr → a.escrita = true → left ≤ a.indice ∧ a.indice ≤ right := by
      intro e1 e2
      have := mem_escritas_arr _ a ha e1 e2
      rw [hesc] at this
      have := mem_intervalo _ _ _ this
      omega
    rw [htrace] at ha
    unfold acesso_valido
    rcases List.mem_append.mp ha with ha | ha
    · rcases List.mem_append.mp ha with ha | ha
      · rcases copiar_para_temp_acessos_spec _ _ _ _ _ a ha with h | h
        · rw [h.1]; dsimp only; omega
        · rw [h.1]; dsimp only; omega
      · rcases copiar_para_temp_acessos_spec _ _ _ _ _ a ha with h | h
        · rw [h.1]; dsimp only; omega
        · rw [h.1]; dsimp only; omega
    · rcases List.mem_append.mp ha with ha | ha
      · rcases laco_intercalar_acessos_spec _ _ _ _ _ _ _ a ha with h | h | h
        · rw [h.1]; dsimp only at h ⊢; omega
        · rw [h.1]; dsimp only at h ⊢; omega
        · rw [h.1]; dsimp only; exact hw h.1 h.2
      · rcases List.mem_append.mp ha with ha | ha
        · rcases laco_resto_L_acessos_spec _ _ _ _ a ha with h | h
          · rw [h.1]; dsimp only at h ⊢; omega
          · rw [h.1]; dsimp only; exact hw h.1 h.2
        · rcases laco_resto_R_acessos_spec _ _ _ _ a ha with h | h
          · rw [h.1]; dsimp only at h ⊢; omega
          · rw [h.1]; dsimp only; exact hw h.1 h.2
  · obtain ⟨calls, e, b, _⟩ := mergeSort_chamadas_spec campo
      ((((arr.length : Int) - 1) - 0).toNat + 1) 0 ((arr.length : Int) - 1) (by omega)
    exact ⟨calls, e, fun c hc => by have := b c hc; omega⟩
  · obtain ⟨f, _, hrun⟩ := mergeSort_spec campo arr st
    exact ⟨_, _, hrun⟩

/-- C19 at a concrete input: merging the two one-record runs of a two-record array
writes `arr[0]`, then `arr[1]`. -/
theorem merge_indices_witness :
    (∃ s, merge_estado [reg_lat d2 65, reg_lat d1 66] 0 0 1 3 stats_zero = some s ∧
      s.k = 1 + 1) ∧
    (∀ a ∈ merge_acessos [reg_lat d2 65, reg_lat d1 66] 0 0 1 3 stats_zero,
      acesso_valido 0 0 1 a) ∧
    escritas_arr (merge_acessos [reg_lat d2 65, reg_lat d1 66] 0 0 1 3 stats_zero)
      = intervalo 0 ((1 : Int) - 0 + 1).toNat ∧
    (∃ calls, mergeSort_chamadas
        (((([reg_lat d2 65, reg_lat d1 66].length : Int) - 1) - 0).toNat + 1) 0
        (([reg_lat d2 65, reg_lat d1 66].length : Int) - 1) = some calls ∧
      ∀ c ∈ calls, 0 ≤ c.1 ∧ c.1 ≤ c.2.1 ∧ c.2.1 < c.2.2 ∧
        c.2.2 < ([reg_lat d2 65, reg_lat d1 66].length : Int)) ∧
    ∃ out st1, mergeSort [reg_lat d2 65, reg_lat d1 66] 0
      (([reg_lat d2 65, reg_lat d1 66].length : Int) - 1) 3 stats_zero = some (out, st1) :=
  merge_indices [reg_lat d2 65, reg_lat d1 66] 0 0 1 3 stats_zero
    (by decide) (by decide) (by decide) (by decide)

/-- The accesses of `merge` on the two one-record runs `[2.0]`, `[1.0]`, as a hand
trace of the source gives them. -/
theorem merge_acessos_exemplo :
    merge_acessos [reg_lat d2 65, reg_lat d1 66] 0 0 1 3 stats_zero
      = [⟨Alvo.arr, false, 0⟩, ⟨Alvo.L, true, 0⟩, ⟨Alvo.arr, false, 1⟩, ⟨Alvo.R, true, 0⟩,
         ⟨Alvo.L, false, 0⟩, ⟨Alvo.R, false, 0⟩, ⟨Alvo.R, false, 0⟩, ⟨Alvo.arr, true, 0⟩,
         ⟨Alvo.L, false, 0⟩, ⟨Alvo.arr, true, 1⟩] := by
  decide

end ApsMergeSort
